import Mathlib

/-!
gogenesis: name resolution, dependency ordering and schema-expression synthesis.

A shallow embedding of `internal/parser/parser.go`, `internal/generator/generator.go`,
`internal/generator/typescript_schema.go` and the ordering pass shared by
`internal/generator/typescript/typescript.go` and `internal/generator/golang/golang.go`.

Conventions of the embedding:

* a Go `string` obtained from `encoding/json` is valid UTF-8, so it is a `String`
  (a list of runes); byte-wise comparison of valid UTF-8 is comparison of rune lists;
* a Go `map[string]V` is an association list whose keys are pairwise distinct; the
  order in which `range` visits a map is not fixed by Go, so every loop over a map takes
  its visiting order from the caller (the order of the entry list, or an enumeration
  function);
* recursion that Go does not bound (the closure `scan`, the expression generators, the
  closure `visit`, the suffix loop) takes a fuel argument and reports `Fault.fuelExhausted`
  when it runs out; dereferencing a nil pointer reports `Fault.nilDereference`.
-/

namespace GoGenesis

/-- How a run can fail to produce a value. -/
inductive Fault where
  | nilDereference
  | fuelExhausted
  deriving DecidableEq, Repr

deriving instance DecidableEq for Except

/-! ## `internal/parser/parser.go` -/

mutual
/-- The struct `parser.PlutusDefinition`; a nil pointer is `none`. -/
inductive PlutusDefinition where
  | mk (Title Description DataType : String) (Fields : List PlutusField)
      (AnyOf : List PlutusDefinition) (Ref : String)
      (Items Keys Values : Option PlutusDefinition)
      (MinItems MaxItems : Int) (UniqueItems HasConstr : Bool)
/-- The struct `parser.PlutusField`. -/
inductive PlutusField where
  | mk (Title Type_ Ref : String) (Items : Option PlutusDefinition)
end

namespace PlutusDefinition

def Title : PlutusDefinition → String
  | mk t _ _ _ _ _ _ _ _ _ _ _ _ => t
def Description : PlutusDefinition → String
  | mk _ d _ _ _ _ _ _ _ _ _ _ _ => d
def DataType : PlutusDefinition → String
  | mk _ _ d _ _ _ _ _ _ _ _ _ _ => d
def Fields : PlutusDefinition → List PlutusField
  | mk _ _ _ f _ _ _ _ _ _ _ _ _ => f
def AnyOf : PlutusDefinition → List PlutusDefinition
  | mk _ _ _ _ a _ _ _ _ _ _ _ _ => a
def Ref : PlutusDefinition → String
  | mk _ _ _ _ _ r _ _ _ _ _ _ _ => r
def Items : PlutusDefinition → Option PlutusDefinition
  | mk _ _ _ _ _ _ i _ _ _ _ _ _ => i
def Keys : PlutusDefinition → Option PlutusDefinition
  | mk _ _ _ _ _ _ _ k _ _ _ _ _ => k
def Values : PlutusDefinition → Option PlutusDefinition
  | mk _ _ _ _ _ _ _ _ v _ _ _ _ => v
def MinItems : PlutusDefinition → Int
  | mk _ _ _ _ _ _ _ _ _ m _ _ _ => m
def MaxItems : PlutusDefinition → Int
  | mk _ _ _ _ _ _ _ _ _ _ m _ _ => m
def UniqueItems : PlutusDefinition → Bool
  | mk _ _ _ _ _ _ _ _ _ _ _ u _ => u
def HasConstr : PlutusDefinition → Bool
  | mk _ _ _ _ _ _ _ _ _ _ _ _ h => h

/-- The zero value of the Go struct, which `defs[k]` yields for an absent key. -/
def zero : PlutusDefinition :=
  mk "" "" "" [] [] "" none none none 0 0 false false

end PlutusDefinition

namespace PlutusField

def Title : PlutusField → String
  | mk t _ _ _ => t
def Type_ : PlutusField → String
  | mk _ t _ _ => t
def Ref : PlutusField → String
  | mk _ _ r _ => r
def Items : PlutusField → Option PlutusDefinition
  | mk _ _ _ i => i

end PlutusField

/-- The map `PlutusSchema.Definitions`: its entries, keys pairwise distinct. -/
abbrev Definitions := List (String × PlutusDefinition)

/-- The lookup `defs[k]` with the comma-ok result. -/
def mapGet {β : Type} (m : List (String × β)) (k : String) : Option β :=
  match m with
  | [] => none
  | (k', v) :: rest => if k' = k then some v else mapGet rest k

/-- The assignment `m[k] = v`. -/
def mapSet {β : Type} (m : List (String × β)) (k : String) (v : β) : List (String × β) :=
  (k, v) :: m.filter (fun e => decide (e.1 ≠ k))

/-- The keys of a map. -/
def mapKeys {β : Type} (m : List (String × β)) : List String := m.map Prod.fst

/-! ## Go standard library functions used by the generator -/

namespace strings

/-- Go's `strings.HasPrefix`. -/
def HasPrefix (s pre : String) : Bool := pre.data.isPrefixOf s.data

/-- Go's `strings.TrimPrefix`. -/
def TrimPrefix (s pre : String) : String :=
  if HasPrefix s pre then ⟨s.data.drop pre.data.length⟩ else s

/-- Left-to-right, non-overlapping replacement; `skip` runes of a match are still to
be dropped. -/
def replaceAux (old new : List Char) : Nat → List Char → List Char
  | _, [] => []
  | skip + 1, _ :: cs => replaceAux old new skip cs
  | 0, c :: cs =>
    if old.isPrefixOf (c :: cs) then new ++ replaceAux old new (old.length - 1) cs
    else c :: replaceAux old new 0 cs

/-- Go's `strings.ReplaceAll` for a non-empty `old` (the generator only passes the constants
`" "`, `"$"`, `"/"` and `"~1"`). -/
def ReplaceAll (s old new : String) : String := ⟨replaceAux old.data new.data 0 s.data⟩

/-- Does `sub` occur in the rune list. -/
def containsAux (sub : List Char) : List Char → Bool
  | [] => sub.isEmpty
  | c :: cs => sub.isPrefixOf (c :: cs) || containsAux sub cs

/-- Go's `strings.Contains`. -/
def Contains (s sub : String) : Bool := containsAux sub.data s.data

/-- Splitting at the non-overlapping occurrences of `sep`, left to right; `cur` is the
current piece, reversed. -/
def splitAux (sep : List Char) : Nat → List Char → List Char → List (List Char)
  | _, cur, [] => [cur.reverse]
  | skip + 1, cur, _ :: cs => splitAux sep skip cur cs
  | 0, cur, c :: cs =>
    if sep.isPrefixOf (c :: cs) then cur.reverse :: splitAux sep (sep.length - 1) [] cs
    else splitAux sep 0 (c :: cur) cs

/-- Go's `strings.Split` for a non-empty separator. -/
def Split (s sep : String) : List String := (splitAux sep.data 0 [] s.data).map String.mk

/-- Go's `strings.Join`. -/
def Join (parts : List String) (sep : String) : String := sep.intercalate parts

end strings

/-- The class `\w` of Go's `regexp`: ASCII letters, ASCII digits and the underscore. -/
def isWordChar (c : Char) : Bool := c.isAlphanum || c == '_'

/-- Every maximal run of non-word runes becomes one underscore; `inRun` says that the
previous rune belonged to such a run. -/
def replaceNonWordRuns : Bool → List Char → List Char
  | _, [] => []
  | inRun, c :: cs =>
    if isWordChar c then c :: replaceNonWordRuns false cs
    else if inRun then replaceNonWordRuns true cs
    else '_' :: replaceNonWordRuns true cs

/-- The call `regexp.MustCompile("[^\\w]+").ReplaceAllString(raw, "_")`. -/
def reReplaceAllString (raw : String) : String := ⟨replaceNonWordRuns false raw.data⟩

/-- The verb `%d` of `fmt.Sprintf` on a non-negative `int`. -/
def fmtNat (n : Nat) : String := toString n

/-- The verb `%d` of `fmt.Sprintf` on an `int`. -/
def fmtInt (i : Int) : String := toString i

/-! ## `internal/generator/generator.go`: type names -/

/-- The function `MakeTypeName` (and its copy `makeTypeName` in `typescript_schema.go`). The first rune
is upper-cased with `Char.toUpper`, which agrees with Go's `strings.ToUpper` on ASCII. -/
def MakeTypeName (raw : String) : String :=
  let raw := strings.ReplaceAll raw " " "_"
  let raw := strings.ReplaceAll raw "$" "_"
  let raw := reReplaceAllString raw
  let raw := if strings.Contains raw "~1" then (strings.Split raw "~1").getLastD "" else raw
  match raw.data with
  | [] => raw
  | first :: rest => ⟨first.toUpper :: rest⟩

/-- The copy of `MakeTypeName` private to `typescript_schema.go`. -/
def makeTypeName (raw : String) : String :=
  let raw := strings.ReplaceAll raw " " "_"
  let raw := strings.ReplaceAll raw "$" "_"
  let raw := reReplaceAllString raw
  let raw := if strings.Contains raw "~1" then (strings.Split raw "~1").getLastD "" else raw
  match raw.data with
  | [] => raw
  | first :: rest => ⟨first.toUpper :: rest⟩

/-- The map `GeneratorOptions.ReservedNames`, read as `ReservedNames[name]`. -/
abbrev ReservedNames := String → Bool

/-- The variable `defaultReservedNames`. -/
def defaultReservedNames : ReservedNames := fun s => s == "Data" || s == "Dummy"

/-- The loop `for used[unique] { counter++; unique = Sprintf("%s_%d", namespaced, counter) }`
entered with `counter`; it returns the first unused candidate. -/
def suffixLoop (used : List String) (namespaced : String) : Nat → Nat → Except Fault String
  | 0, _ => .error .fuelExhausted
  | fuel + 1, counter =>
    let unique := namespaced ++ "_" ++ fmtNat counter
    if unique ∈ used then suffixLoop used namespaced fuel (counter + 1) else .ok unique

/-- The method `Generator.getUniqueTypeName`; the set `used` is the list of the keys stored with
`true`. The result is the returned name and the updated set. -/
def getUniqueTypeName (reserved : ReservedNames) (fuel : Nat) (title refName : String)
    (used : List String) : Except Fault (String × List String) :=
  let base := MakeTypeName title
  let base :=
    if reserved base then
      let base := MakeTypeName (strings.ReplaceAll refName "/" "_")
      if reserved base || base == "Data" then "Plutus" ++ base else base
    else base
  if ¬ base ∈ used then .ok (base, base :: used)
  else
    let namespaced := MakeTypeName (strings.ReplaceAll refName "/" "_")
    let namespaced :=
      if reserved namespaced || namespaced == "Data" then "Plutus" ++ namespaced
      else namespaced
    if ¬ namespaced ∈ used then .ok (namespaced, namespaced :: used)
    else do
      let unique ← suffixLoop used namespaced fuel 1
      .ok (unique, unique :: used)

/-- The state of the name loop of `Generator.Generate`: `usedNames` and `chosenNames`. -/
structure NameState where
  usedNames : List String
  chosenNames : List (String × String)

/-- One iteration of the loop `for refName, def := range schema.Definitions`. -/
def nameStep (reserved : ReservedNames) (fuel : Nat) (st : NameState)
    (entry : String × PlutusDefinition) : Except Fault NameState := do
  let refName := entry.1
  let title := if entry.2.Title = "" then refName else entry.2.Title
  let (name, used) ← getUniqueTypeName reserved fuel title refName st.usedNames
  .ok { usedNames := used, chosenNames := mapSet st.chosenNames refName name }

/-- The first loop of `Generator.Generate`: the chosen names, with the definitions
visited in the order of `entries`. -/
def Generator.chosenNames (reserved : ReservedNames) (fuel : Nat) (entries : Definitions) :
    Except Fault (List (String × String)) := do
  let st ← entries.foldlM (nameStep reserved fuel) { usedNames := [], chosenNames := [] }
  .ok st.chosenNames

/-! ## `internal/generator/generator.go`: dependency analysis -/

/-- The dereference `*p` of a pointer. -/
def deref {α : Type} : Option α → Except Fault α
  | some a => .ok a
  | none => .error .nilDereference

/-- The statement `depsSet[r] = true` on the key list of `depsSet`. -/
def setAdd (depsSet : List String) (r : String) : List String :=
  if r ∈ depsSet then depsSet else depsSet ++ [r]

/-- The two lines that turn a `$ref` into a reference name: `strings.TrimPrefix` of
`"#/definitions/"`, then `strings.ReplaceAll` of `"~1"` by `"/"` (`normalizeRef` in
`typescript_schema.go` is the same code). -/
def normalizeRef (ref : String) : String :=
  strings.ReplaceAll (strings.TrimPrefix ref "#/definitions/") "~1" "/"

/-- What the closure `scan` is applied to: the two cases of its type switch. -/
abbrev ScanArg := PlutusDefinition ⊕ PlutusField

/-- The `if v.Ref != ""` block of the case `parser.PlutusDefinition` of `scan`; `self` is
the closure itself. -/
def scanDefRef (defs : Definitions) (self : ScanArg → List String → Except Fault (List String))
    (ref : String) (depsSet : List String) : Except Fault (List String) :=
  if ref ≠ "" then
    let r := normalizeRef ref
    if strings.HasPrefix r "List$" then
      match mapGet defs r with
      | some listDef =>
        if listDef.DataType = "map" then do
          let keys ← deref listDef.Keys
          let depsSet ← self (.inl keys) depsSet
          let values ← deref listDef.Values
          self (.inl values) depsSet
        else
          match listDef.Items with
          | some items => self (.inl items) depsSet
          | none => .ok depsSet
      | none => .ok depsSet
    else if (mapGet defs r).isSome then .ok (setAdd depsSet r)
    else .ok depsSet
  else .ok depsSet

/-- The `if v.Ref != ""` block of the case `parser.PlutusField` of `scan`. -/
def scanFieldRef (defs : Definitions) (self : ScanArg → List String → Except Fault (List String))
    (ref : String) (depsSet : List String) : Except Fault (List String) :=
  if ref ≠ "" then
    let r := normalizeRef ref
    if strings.HasPrefix r "List$" then
      match mapGet defs r with
      | some listDef =>
        match listDef.Items with
        | some items => self (.inl items) depsSet
        | none => .ok depsSet
      | none => .ok depsSet
    else if (mapGet defs r).isSome then .ok (setAdd depsSet r)
    else .ok depsSet
  else .ok depsSet

/-- The statement `if p != nil { scan(*p) }`. -/
def scanOpt (self : ScanArg → List String → Except Fault (List String))
    (p : Option PlutusDefinition) (depsSet : List String) : Except Fault (List String) :=
  match p with
  | some d => self (.inl d) depsSet
  | none => .ok depsSet

/-- The closure `scan` of `CollectDependenciesMemo`, with the set `depsSet` it writes to
passed through. -/
def scan (defs : Definitions) : Nat → ScanArg → List String → Except Fault (List String)
  | 0, _, _ => .error .fuelExhausted
  | fuel + 1, .inl v, depsSet => do
    let depsSet ← scanDefRef defs (scan defs fuel) v.Ref depsSet
    let depsSet ← v.AnyOf.foldlM (fun s alt => scan defs fuel (.inl alt) s) depsSet
    let depsSet ← v.Fields.foldlM (fun s field => scan defs fuel (.inr field) s) depsSet
    let depsSet ← scanOpt (scan defs fuel) v.Items depsSet
    let depsSet ← scanOpt (scan defs fuel) v.Keys depsSet
    scanOpt (scan defs fuel) v.Values depsSet
  | fuel + 1, .inr v, depsSet => do
    let depsSet ← scanFieldRef defs (scan defs fuel) v.Ref depsSet
    scanOpt (scan defs fuel) v.Items depsSet

/-- The argument `memo` of `CollectDependenciesMemo`. -/
abbrev DepMemo := List (String × List String)

/-- The order in which `for dep := range depsSet` visits the keys of the set built for a
reference name: Go leaves it open, a run picks one. -/
abbrev MapOrder := String → List String → List String

/-- The function `CollectDependenciesMemo`; the result is the returned slice and the updated memo. -/
def CollectDependenciesMemo (enum : MapOrder) (fuel : Nat) (refName : String)
    (defs : Definitions) (memo : DepMemo) : Except Fault (List String × DepMemo) :=
  match mapGet memo refName with
  | some deps => .ok (deps, memo)
  | none => do
    let def_ := (mapGet defs refName).getD PlutusDefinition.zero
    let depsSet ← scan defs fuel (.inl def_) []
    let deps := enum refName depsSet
    .ok (deps, mapSet memo refName deps)

/-! ## The ordering pass of `TypeScriptGenerator.Generate` and `GoGenerator.Generate` -/

/-- The variables `visited`, `finalOrder` and `depMemo` that the closure `visit` captures. -/
structure OrderState where
  visited : List String
  finalOrder : List String
  depMemo : DepMemo

/-- The closure `visit`. -/
def visit (enum : MapOrder) (defs : Definitions) (scanFuel : Nat) :
    Nat → String → OrderState → Except Fault OrderState
  | 0, _, _ => .error .fuelExhausted
  | fuel + 1, refName, st =>
    if refName ∈ st.visited then .ok st
    else do
      let st : OrderState := { st with visited := refName :: st.visited }
      let (deps, memo) ← CollectDependenciesMemo enum scanFuel refName defs st.depMemo
      let st : OrderState := { st with depMemo := memo }
      let st ← deps.foldlM (fun st dep => visit enum defs scanFuel fuel dep st) st
      .ok { st with finalOrder := st.finalOrder ++ [refName] }

/-- Lexicographic `<` on rune lists, the order of Go's `<` on valid UTF-8 strings. -/
def runesLT : List Char → List Char → Bool
  | _, [] => false
  | [], _ :: _ => true
  | a :: as, b :: bs => a.toNat < b.toNat || (a.toNat == b.toNat && runesLT as bs)

/-- The order `sort.Strings` sorts by. -/
def strLE (a b : String) : Prop := runesLT b.data a.data = false

instance : DecidableRel strLE := fun _ _ => inferInstanceAs (Decidable (_ = false))

/-- Go's `sort.Strings`. -/
def sortStrings (l : List String) : List String := l.insertionSort strLE

/-- The ordering pass of `TypeScriptGenerator.Generate`: the keys are collected and sorted,
`visit` is called on each, and `finalOrder` is the emission order. -/
def TypeScriptGenerator.finalOrder (enum : MapOrder) (defs : Definitions)
    (scanFuel fuel : Nat) : Except Fault (List String) := do
  let refNames := sortStrings (mapKeys defs)
  let st ← refNames.foldlM (fun st refName => visit enum defs scanFuel fuel refName st)
    { visited := [], finalOrder := [], depMemo := [] }
  .ok st.finalOrder

/-- The ordering pass of `GoGenerator.Generate`, the same statements. -/
def GoGenerator.finalOrder (enum : MapOrder) (defs : Definitions)
    (scanFuel fuel : Nat) : Except Fault (List String) := do
  let refNames := sortStrings (mapKeys defs)
  let st ← refNames.foldlM (fun st refName => visit enum defs scanFuel fuel refName st)
    { visited := [], finalOrder := [], depMemo := [] }
  .ok st.finalOrder

/-! ## `internal/generator/typescript_schema.go`: schema expressions -/

/-- The argument `chosenNames`. -/
abbrev ChosenNames := List (String × String)

/-- The description that triggers the wrapped-redeemer case. -/
def wrappedRedeemerDescription : String :=
  "A redeemer wrapped in an extra constructor to make multi-validator detection possible on-chain."

/-- The list `opts` built by `generateListExpressionFromDef`. -/
def listOpts (def_ : PlutusDefinition) : List String :=
  let opts : List String := []
  let opts := if def_.MinItems ≠ 0 then opts ++ ["minItems: " ++ fmtInt def_.MinItems] else opts
  let opts := if def_.MaxItems ≠ 0 then opts ++ ["maxItems: " ++ fmtInt def_.MaxItems] else opts
  if def_.UniqueItems then opts ++ ["uniqueItems: true"] else opts

mutual

/-- The function `generateSchemaExpression`. -/
def generateSchemaExpression (defs : Definitions) (chosenNames : ChosenNames) :
    Nat → PlutusDefinition → Except Fault String
  | 0, _ => .error .fuelExhausted
  | fuel + 1, def_ =>
    let general : Except Fault String :=
      match def_.AnyOf with
      | _ :: _ :: _ => generateEnumExpression defs chosenNames fuel def_.AnyOf
      | [cons] => generateSingleConstructor defs chosenNames fuel cons def_.Title
      | [] =>
        if def_.DataType = "bytes" then .ok "Data.Bytes()"
        else if def_.DataType = "integer" then .ok "Data.Integer()"
        else if def_.DataType = "map" then generateMapExpression defs chosenNames fuel def_
        else if def_.DataType = "list" then
          generateListExpressionFromDef defs chosenNames fuel def_
        else .ok "Data.Any()"
    if def_.Description = wrappedRedeemerDescription then
      match def_.AnyOf with
      | alt :: _ =>
        match alt.Fields with
        | field :: _ => do
          let wrappedType ← generateRefExpressionForField defs chosenNames fuel field
          .ok ("Data.Enum([\n  Data.Object(\x7b Dummy: Data.Tuple([]) \x7d),\n  Data.Object(\x7b Wrapped: Data.Tuple(["
            ++ wrappedType ++ "]) \x7d)\n])")
        | [] => general
      | [] => general
    else general

/-- The function `generateEnumExpression`. -/
def generateEnumExpression (defs : Definitions) (chosenNames : ChosenNames) :
    Nat → List PlutusDefinition → Except Fault String
  | 0, _ => .error .fuelExhausted
  | fuel + 1, alts => do
    let parts ← alts.mapM (fun alt => generateConstructorInEnum defs chosenNames fuel alt)
    .ok ("Data.Enum([" ++ strings.Join parts ", " ++ "])")

/-- The function `generateSingleConstructor`. -/
def generateSingleConstructor (defs : Definitions) (chosenNames : ChosenNames) :
    Nat → PlutusDefinition → String → Except Fault String
  | 0, _, _ => .error .fuelExhausted
  | fuel + 1, cons, parentTitle =>
    if cons.Fields.length = 0 then .ok "Data.Object(\x7b\x7d, \x7b hasConstr: true \x7d)"
    else if parentTitle ≠ "" ∧ cons.Title = parentTitle then do
      let fieldExprs ← cons.Fields.mapM (fun f => do
        let e ← generateRefExpressionForField defs chosenNames fuel f
        .ok (f.Title ++ ": " ++ e))
      .ok ("Data.Object(\x7b " ++ strings.Join fieldExprs ", " ++ " \x7d)")
    else generateConstructorAsObject defs chosenNames fuel cons

/-- The function `generateConstructorInEnum`. -/
def generateConstructorInEnum (defs : Definitions) (chosenNames : ChosenNames) :
    Nat → PlutusDefinition → Except Fault String
  | 0, _ => .error .fuelExhausted
  | fuel + 1, cons =>
    if cons.Fields.length = 0 then
      let nm := if cons.Title = "" then "Unknown" else cons.Title
      .ok ("Data.Literal(\"" ++ nm ++ "\")")
    else do
      let tupleItems ← cons.Fields.mapM
        (fun f => generateRefExpressionForField defs chosenNames fuel f)
      .ok ("Data.Object(\x7b " ++ cons.Title ++ ": Data.Tuple([" ++ strings.Join tupleItems ", "
        ++ "]) \x7d)")

/-- The function `generateConstructorAsObject`. -/
def generateConstructorAsObject (defs : Definitions) (chosenNames : ChosenNames) :
    Nat → PlutusDefinition → Except Fault String
  | 0, _ => .error .fuelExhausted
  | fuel + 1, cons =>
    let constructorTitle := if cons.Title = "" then "Unknown" else cons.Title
    if cons.Fields.length = 0 then .ok "Data.Any()"
    else
      let allFieldsHaveTitles := cons.Fields.all (fun f => decide (f.Title ≠ ""))
      if allFieldsHaveTitles then do
        let tupleItems ← cons.Fields.mapM
          (fun f => generateRefExpressionForField defs chosenNames fuel f)
        .ok ("Data.Object(\x7b " ++ constructorTitle ++ ": Data.Tuple(["
          ++ strings.Join tupleItems ", " ++ "]) \x7d)")
      else do
        let tupleItems ← cons.Fields.mapM
          (fun f => generateRefExpressionForField defs chosenNames fuel f)
        .ok ("Data.Tuple([" ++ strings.Join tupleItems ", " ++ "], \x7b hasConstr: true \x7d)")

/-- The function `generateMapExpression`. -/
def generateMapExpression (defs : Definitions) (chosenNames : ChosenNames) :
    Nat → PlutusDefinition → Except Fault String
  | 0, _ => .error .fuelExhausted
  | fuel + 1, def_ =>
    match def_.Keys, def_.Values with
    | some keys, some values => do
      let keysExpr ← generateRefExpressionForDef defs chosenNames fuel keys
      let valuesExpr ← generateRefExpressionForDef defs chosenNames fuel values
      .ok ("Data.Map(" ++ keysExpr ++ ", " ++ valuesExpr ++ ")")
    | _, _ => .ok "Data.Map(Data.Any(), Data.Any())"

/-- The function `generateListExpressionFromDef`. -/
def generateListExpressionFromDef (defs : Definitions) (chosenNames : ChosenNames) :
    Nat → PlutusDefinition → Except Fault String
  | 0, _ => .error .fuelExhausted
  | fuel + 1, def_ =>
    match def_.Items with
    | none => .ok "Data.Array(Data.Any())"
    | some items => do
      let itemExpr ← generateRefExpressionForDef defs chosenNames fuel items
      let opts := listOpts def_
      if opts.length > 0 then
        .ok ("Data.Array(" ++ itemExpr ++ ", \x7b " ++ strings.Join opts ", " ++ " \x7d)")
      else .ok ("Data.Array(" ++ itemExpr ++ ")")

/-- The function `generateListExpression`. -/
def generateListExpression (defs : Definitions) (chosenNames : ChosenNames) :
    Nat → PlutusDefinition → Except Fault String
  | 0, _ => .error .fuelExhausted
  | fuel + 1, def_ => generateListExpressionFromDef defs chosenNames fuel def_

/-- The function `generateRefExpressionForDef`. -/
def generateRefExpressionForDef (defs : Definitions) (chosenNames : ChosenNames) :
    Nat → PlutusDefinition → Except Fault String
  | 0, _ => .error .fuelExhausted
  | fuel + 1, def_ =>
    if def_.Ref ≠ "" then
      let normalized := normalizeRef def_.Ref
      if strings.HasPrefix normalized "List$" then do
        match ← resolveListReference defs chosenNames fuel normalized with
        | some expr => .ok expr
        | none => .ok (makeTypeName normalized ++ "Schema")
      else
        match mapGet chosenNames normalized with
        | some tsType => .ok (tsType ++ "Schema")
        | none => .ok (makeTypeName normalized ++ "Schema")
    else if def_.DataType ≠ "" ∨ def_.AnyOf.length > 0 then
      generateSchemaExpression defs chosenNames fuel def_
    else .ok "Data.Any()"

/-- The function `generateRefExpressionForField`. -/
def generateRefExpressionForField (defs : Definitions) (chosenNames : ChosenNames) :
    Nat → PlutusField → Except Fault String
  | 0, _ => .error .fuelExhausted
  | fuel + 1, field =>
    if field.Ref ≠ "" then
      let normalized := normalizeRef field.Ref
      if strings.HasPrefix normalized "List$" then do
        match ← resolveListReference defs chosenNames fuel normalized with
        | some expr => .ok expr
        | none => .ok (makeTypeName normalized ++ "Schema")
      else
        match mapGet chosenNames normalized with
        | some tsType => .ok (tsType ++ "Schema")
        | none => .ok (makeTypeName normalized ++ "Schema")
    else
      match field.Items with
      | some items => generateListExpression defs chosenNames fuel items
      | none => .ok "Data.Any()"

/-- The function `resolveListReference`; the pair `(expr, ok)` is `some expr` when `ok` is true. -/
def resolveListReference (defs : Definitions) (chosenNames : ChosenNames) :
    Nat → String → Except Fault (Option String)
  | 0, _ => .error .fuelExhausted
  | fuel + 1, normalized =>
    match mapGet defs normalized with
    | none => .ok none
    | some listDef =>
      let viaItems : Except Fault (Option String) :=
        match listDef.Items with
        | some items => do
          let itemExpr ← generateRefExpressionForDef defs chosenNames fuel items
          .ok (some ("Data.Array(" ++ itemExpr ++ ")"))
        | none => .ok none
      if listDef.DataType = "map" then
        match listDef.Keys, listDef.Values with
        | some keys, some values => do
          let keysExpr ← generateRefExpressionForDef defs chosenNames fuel keys
          let valuesExpr ← generateRefExpressionForDef defs chosenNames fuel values
          .ok (some ("Data.Map(" ++ keysExpr ++ ", " ++ valuesExpr ++ ")"))
        | _, _ => viaItems
      else viaItems

end

/-! ## Example schemas -/

/-- A definition with only a title and a data type. -/
def leafDef (title dataType : String) : PlutusDefinition :=
  .mk title "" dataType [] [] "" none none none 0 0 false false

/-- A field with a title and a reference. -/
def refField (title ref : String) : PlutusField := .mk title "" ref none

/-- A definition with a title and a single alternative. -/
def recordDef (title consTitle : String) (fields : List PlutusField) : PlutusDefinition :=
  .mk title "" "" []
    [.mk consTitle "" "" fields [] "" none none none 0 0 false false]
    "" none none none 0 0 false false

/-- The schema of the end-to-end example: `A` is `bytes`, `B` has one alternative `B` with
a field `x` referring to `A`. -/
def endToEndSchema : Definitions :=
  [("A", leafDef "A" "bytes"), ("B", recordDef "B" "B" [refField "x" "#/definitions/A"])]

/-- The same schema with its entries visited in the other order. -/
def endToEndSchemaRev : Definitions :=
  [("B", recordDef "B" "B" [refField "x" "#/definitions/A"]), ("A", leafDef "A" "bytes")]

/-- A schema with a reference cycle between `A` and `B` and a self-reference of `A`. -/
def cyclicSchema : Definitions :=
  [("A", recordDef "A" "A" [refField "x" "#/definitions/B", refField "self" "#/definitions/A"]),
   ("B", recordDef "B" "B" [refField "y" "#/definitions/A"])]

/-- A map order: the keys as they were inserted. -/
def insertionOrder : MapOrder := fun _ l => l

/-- A map order: the keys in the reverse of the order they were inserted in. -/
def reverseOrder : MapOrder := fun _ l => l.reverse

/-- An alternative with a title and fields. -/
def altDef (title : String) (fields : List PlutusField) : PlutusDefinition :=
  .mk title "" "" fields [] "" none none none 0 0 false false

/-- A definition with the alternatives `Foo` (no fields) and `Bar` (one field of type
`integer`, without reference). -/
def fooBarDef : PlutusDefinition :=
  .mk "FooBar" "" "" [] [altDef "Foo" [], altDef "Bar" [.mk "" "integer" "" none]]
    "" none none none 0 0 false false

/-- A wrapped redeemer: the trigger description, one alternative with an empty title and
one field referring to `T`. -/
def wrappedDef : PlutusDefinition :=
  .mk "Redeemer" wrappedRedeemerDescription "" [] [altDef "" [refField "" "#/definitions/T"]]
    "" none none none 0 0 false false

/-- A list of integers with `minItems` 1, `maxItems` 0 and `uniqueItems` true. -/
def constrainedListDef : PlutusDefinition :=
  .mk "" "" "list" [] [] "" (some (leafDef "" "integer")) none none 1 0 true false

/-- Two definitions with the same title, visited `a` first. -/
def sameTitleSchema : Definitions := [("a", leafDef "Foo" "bytes"), ("b", leafDef "Foo" "bytes")]

/-- The same two definitions, visited `b` first. -/
def sameTitleSchemaRev : Definitions :=
  [("b", leafDef "Foo" "bytes"), ("a", leafDef "Foo" "bytes")]

/-- The definition `A` refers to `B` and to `C`, which refer to nothing. -/
def fanOutSchema : Definitions :=
  [("A", recordDef "A" "A" [refField "x" "#/definitions/B", refField "y" "#/definitions/C"]),
   ("B", leafDef "B" "bytes"), ("C", leafDef "C" "bytes")]

/-- A schema with one definition, whose title starts with a digit. -/
def digitTitleSchema : Definitions := [("x", leafDef "1abc" "bytes")]

/-- A schema with one definition, whose reference name and title are empty. -/
def emptyNameSchema : Definitions := [("", leafDef "" "bytes")]

/-! ## Notions used to state the claims -/

/-- The value of a decimal digit rune. -/
def digitVal (c : Char) : Nat := c.toNat - 48

/-- Every chosen name is recorded as used, and no name is chosen for two reference names. -/
def NameInv (st : NameState) : Prop :=
  (∀ r n, mapGet st.chosenNames r = some n → n ∈ st.usedNames) ∧
  (∀ r₁ r₂ n, r₁ ≠ r₂ → mapGet st.chosenNames r₁ = some n → mapGet st.chosenNames r₂ ≠ some n)

/-- The slice `CollectDependenciesMemo(refName, defs, memo)` returns on an empty memo, empty
when the call does not return. -/
def directDeps (enum : MapOrder) (defs : Definitions) (scanFuel : Nat) (refName : String) :
    List String :=
  match CollectDependenciesMemo enum scanFuel refName defs [] with
  | .ok (deps, _) => deps
  | .error _ => []

/-- The call returns a value: it neither dereferences nil nor runs out of fuel. -/
def Returns {α : Type} : Except Fault α → Bool
  | .ok _ => true
  | .error _ => false

/-- Dependency analysis returns for every reference name of the schema. -/
def AnalysisReturns (enum : MapOrder) (defs : Definitions) (scanFuel : Nat) : Prop :=
  ∀ r ∈ mapKeys defs, Returns (CollectDependenciesMemo enum scanFuel r defs []) = true

/-- The dependency relation of the schema, as computed by `CollectDependenciesMemo`: the
reference name `r` of the schema depends on `d`. -/
def DependsOn (enum : MapOrder) (defs : Definitions) (scanFuel : Nat) (r d : String) : Prop :=
  r ∈ mapKeys defs ∧ d ∈ directDeps enum defs scanFuel r

/-- No reference name depends on itself through one or more steps. -/
def Acyclic (enum : MapOrder) (defs : Definitions) (scanFuel : Nat) : Prop :=
  ∀ r, ¬ Relation.TransGen (DependsOn enum defs scanFuel) r r

/-- The dependencies of the keys of the schema, and nothing for other names. -/
def keyDeps (enum : MapOrder) (defs : Definitions) (scanFuel : Nat) (r : String) :
    List String :=
  if r ∈ mapKeys defs then directDeps enum defs scanFuel r else []

/-- The slice `D r` is what `CollectDependenciesMemo` returns for every key `r` that the
memo does not hold, and it lists keys only. -/
def DepsFor (enum : MapOrder) (defs : Definitions) (scanFuel : Nat)
    (D : String → List String) : Prop :=
  (∀ r ∈ mapKeys defs, ∀ memo : DepMemo, mapGet memo r = none →
    CollectDependenciesMemo enum scanFuel r defs memo = .ok (D r, mapSet memo r (D r))) ∧
  (∀ r ∈ mapKeys defs, ∀ d ∈ D r, d ∈ mapKeys defs)

/-- The set `s'` holds nothing but what `s` held and keys of `defs`. -/
def GrowsByKeys (defs : Definitions) (s s' : List String) : Prop :=
  ∀ x ∈ s', x ∈ s ∨ x ∈ mapKeys defs

/-- A closure that only records keys of the schema. -/
def ScanSound (defs : Definitions)
    (self : ScanArg → List String → Except Fault (List String)) : Prop :=
  ∀ v s s', self v s = .ok s' → GrowsByKeys defs s s'

/-- The invariant of the ordering pass: emitted names are pairwise distinct and visited,
visited names are keys, memoised names are visited. -/
def GoodState (defs : Definitions) (S : OrderState) : Prop :=
  S.finalOrder.Nodup ∧ (∀ x ∈ S.finalOrder, x ∈ S.visited) ∧
  (∀ x ∈ S.visited, x ∈ mapKeys defs) ∧
  (∀ x ds, mapGet S.depMemo x = some ds → x ∈ S.visited)

/-- The state `S'` comes after `S`: names were only added, the emitted ones at the end, and
every name newly visited has been emitted. -/
def Extends (S S' : OrderState) : Prop :=
  (∀ x ∈ S.visited, x ∈ S'.visited) ∧
  ∃ ext, S'.finalOrder = S.finalOrder ++ ext ∧ (∀ x ∈ ext, x ∉ S.visited) ∧
    (∀ x ∈ S'.visited, x ∈ S.visited ∨ x ∈ ext)

/-- The number of keys not yet visited. -/
def unvisited (defs : Definitions) (S : OrderState) : Nat :=
  ((mapKeys defs).filter (fun k => decide (k ∉ S.visited))).length

/-- Every listed name comes after all of its dependencies. -/
def TopoSorted (D : String → List String) (order : List String) : Prop :=
  ∀ x ∈ order, ∀ d ∈ D x, d ∈ order ∧ order.indexOf d < order.indexOf x

/-- The name `r` reaches no name that is visited but not yet emitted. -/
def NoGrayReach (D : String → List String) (r : String) (S : OrderState) : Prop :=
  ∀ g, g ∈ S.visited → g ∉ S.finalOrder → ¬ Relation.ReflTransGen (fun a b => b ∈ D a) r g

/-- What one call of `visit` with the given fuel achieves; `D` gives the dependencies. -/
def VisitSpec (enum : MapOrder) (defs : Definitions) (scanFuel : Nat)
    (D : String → List String) (fuel : Nat) : Prop :=
  ∀ r S, r ∈ mapKeys defs → GoodState defs S → unvisited defs S < fuel →
    ∃ S', visit enum defs scanFuel fuel r S = .ok S' ∧ GoodState defs S' ∧ Extends S S' ∧
      r ∈ S'.visited ∧
      ((∀ x, ¬ Relation.TransGen (fun a b => b ∈ D a) x x) → NoGrayReach D r S →
        TopoSorted D S.finalOrder → TopoSorted D S'.finalOrder)

/-- A legal identifier: a letter or underscore, then letters, digits and underscores. -/
def isLegalIdentifier (s : String) : Bool :=
  match s.data with
  | [] => false
  | c :: cs => (c.isAlpha || c == '_') && cs.all (fun c => c.isAlphanum || c == '_')

/-! ## Further example schemas -/

/-- A reserved-name set that also reserves the prefixed form of `Foo`. -/
def fooReserved : ReservedNames := fun s => s == "Foo" || s == "PlutusFoo"

/-- A definition that is only a reference. -/
def refDef (ref : String) : PlutusDefinition :=
  .mk "" "" "" [] [] ref none none none 0 0 false false

/-- A list definition with the given items. -/
def listOf (items : PlutusDefinition) : PlutusDefinition :=
  .mk "" "" "list" [] [] "" (some items) none none 0 0 false false

/-- A map definition with the given keys and values. -/
def mapOf (keys values : PlutusDefinition) : PlutusDefinition :=
  .mk "" "" "map" [] [] "" none (some keys) (some values) 0 0 false false

/-- The list `A` has items referring to the sentinel `List$M`, a map without keys and
without values. -/
def nilMapSchema : Definitions :=
  [("A", listOf (refDef "#/definitions/List$M")), ("List$M", leafDef "" "map")]

/-- The record `A` has a field referring to the sentinel `List$M`, a map from `K` to `V`. -/
def fieldMapSchema : Definitions :=
  [("A", recordDef "A" "A" [refField "m" "#/definitions/List$M"]),
   ("K", leafDef "K" "bytes"),
   ("List$M", mapOf (refDef "#/definitions/K") (refDef "#/definitions/V")),
   ("V", leafDef "V" "bytes")]

/-! ## Further notions used to state the claims -/

/-- The arm of a tagged union for one alternative: the literal tag of its title (`Unknown`
for an empty title) when it has no fields, else the object keyed by its title that wraps
the tuple of its field expressions; `E` gives the expression of each field. -/
def taggedUnionArm (E : PlutusField → String) (alt : PlutusDefinition) : String :=
  if alt.Fields.length = 0 then
    "Data.Literal(\"" ++ (if alt.Title = "" then "Unknown" else alt.Title) ++ "\")"
  else
    "Data.Object(\x7b " ++ alt.Title ++ ": Data.Tuple([" ++
      ", ".intercalate (alt.Fields.map E) ++ "]) \x7d)"

/-- A definition with the wrapped-redeemer description and two alternatives, the first
with a field referring to `T`. -/
def wrappedTwoAltDef : PlutusDefinition :=
  .mk "R" wrappedRedeemerDescription "" []
    [altDef "X" [refField "" "#/definitions/T"], altDef "Y" []]
    "" none none none 0 0 false false

/-- Two chosen-names mappings agree on every name that does not start with the sentinel
prefix `List$`. -/
def AgreeOffSentinels (c c' : ChosenNames) : Prop :=
  ∀ n, strings.HasPrefix n "List$" = false → mapGet c n = mapGet c' n

/-- With the given fuel the expression generators return the same under both chosen-names
mappings. -/
def SameExpressions (defs : Definitions) (c c' : ChosenNames) (fuel : Nat) : Prop :=
  generateSchemaExpression defs c fuel = generateSchemaExpression defs c' fuel ∧
  generateEnumExpression defs c fuel = generateEnumExpression defs c' fuel ∧
  generateSingleConstructor defs c fuel = generateSingleConstructor defs c' fuel ∧
  generateConstructorInEnum defs c fuel = generateConstructorInEnum defs c' fuel ∧
  generateConstructorAsObject defs c fuel = generateConstructorAsObject defs c' fuel ∧
  generateMapExpression defs c fuel = generateMapExpression defs c' fuel ∧
  generateListExpressionFromDef defs c fuel = generateListExpressionFromDef defs c' fuel ∧
  generateListExpression defs c fuel = generateListExpression defs c' fuel ∧
  generateRefExpressionForDef defs c fuel = generateRefExpressionForDef defs c' fuel ∧
  generateRefExpressionForField defs c fuel = generateRefExpressionForField defs c' fuel ∧
  resolveListReference defs c fuel = resolveListReference defs c' fuel

/-- The sentinel `List$X` is a definition with a title, without items, keys or values. -/
def titledSentinelSchema : Definitions := [("List$X", leafDef "Foo" "bytes")]

/-- The sentinel `List$L` wraps a list of `K`, the sentinel `List$M` wraps a map from `K` to
lists of `K`. -/
def sentinelSchema : Definitions :=
  [("K", leafDef "K" "bytes"),
   ("List$L", listOf (refDef "#/definitions/K")),
   ("List$M", mapOf (refDef "#/definitions/K") (refDef "#/definitions/List$L")),
   ("R", recordDef "R" "R" [refField "m" "#/definitions/List$M", refField "k" "#/definitions/K"]),
   ("S", listOf (refDef "#/definitions/List$M"))]

/-- A closure that keeps the property `P` of the set it writes to. -/
def ScanKeeps (P : List String → Prop)
    (self : ScanArg → List String → Except Fault (List String)) : Prop :=
  ∀ v s s', self v s = .ok s' → P s → P s'

/-- The property `P` survives recording a key of the schema that does not start with the
sentinel prefix. -/
def KeptByRecording (defs : Definitions) (P : List String → Prop) : Prop :=
  ∀ s r, P s → strings.HasPrefix r "List$" = false → (mapGet defs r).isSome = true →
    P (setAdd s r)

/-! ## Candidates of `getUniqueTypeName` -/

/-- The value of `base` when `getUniqueTypeName` first consults the used set: the first
candidate. -/
def firstCandidate (reserved : ReservedNames) (title refName : String) : String :=
  let base := MakeTypeName title
  if reserved base then
    let base := MakeTypeName (strings.ReplaceAll refName "/" "_")
    if reserved base || base == "Data" then "Plutus" ++ base else base
  else base

/-- The value of `namespaced` when `getUniqueTypeName` consults the used set for it:
candidate 2. -/
def namespacedCandidate (reserved : ReservedNames) (refName : String) : String :=
  let namespaced := MakeTypeName (strings.ReplaceAll refName "/" "_")
  if reserved namespaced || namespaced == "Data" then "Plutus" ++ namespaced else namespaced

/-! ## Lemmas -/

/-! ## Maps as association lists -/

theorem mapGet_filter_ne {β : Type} (m : List (String × β)) (k k' : String) (h : k' ≠ k) :
    mapGet (m.filter (fun e => decide (e.1 ≠ k))) k' = mapGet m k' := by
  induction m with
  | nil => rfl
  | cons e rest ih =>
    obtain ⟨a, b⟩ := e
    rw [List.filter_cons]
    by_cases hak : a = k
    · have hne : ¬ a = k' := fun hh => h (hh.symm.trans hak)
      have hd : decide ((a, b).1 ≠ k) = false := by simp [hak]
      rw [hd]
      simp only [Bool.false_eq_true, if_false, mapGet, hne]
      exact ih
    · have hd : decide ((a, b).1 ≠ k) = true := by simp [hak]
      rw [hd]
      simp only [if_true, mapGet]
      rw [ih]

theorem mapGet_mapSet_self {β : Type} (m : List (String × β)) (k : String) (v : β) :
    mapGet (mapSet m k v) k = some v := by
  simp [mapSet, mapGet]

theorem mapGet_mapSet_ne {β : Type} (m : List (String × β)) (k k' : String) (v : β)
    (h : k' ≠ k) : mapGet (mapSet m k v) k' = mapGet m k' := by
  have hne : ¬ k = k' := fun hh => h hh.symm
  simp only [mapSet, mapGet, hne, if_false]
  exact mapGet_filter_ne m k k' h

theorem mem_mapKeys_of_mapGet {β : Type} (m : List (String × β)) (k : String) (v : β)
    (h : mapGet m k = some v) : k ∈ mapKeys m := by
  induction m with
  | nil => simp [mapGet] at h
  | cons e rest ih =>
    obtain ⟨a, b⟩ := e
    by_cases hak : a = k
    · simp [mapKeys, hak]
    · simp only [mapGet, hak, if_false] at h
      have := ih h
      simp only [mapKeys, List.map_cons, List.mem_cons] at this ⊢
      exact Or.inr this

theorem mapGet_isSome_of_mem {β : Type} (m : List (String × β)) (k : String)
    (h : k ∈ mapKeys m) : ∃ v, mapGet m k = some v := by
  induction m with
  | nil => simp [mapKeys] at h
  | cons e rest ih =>
    obtain ⟨a, b⟩ := e
    by_cases hak : a = k
    · exact ⟨b, by simp [mapGet, hak]⟩
    · simp only [mapKeys, List.map_cons, List.mem_cons] at h
      rcases h with h | h
      · exact absurd h.symm hak
      · obtain ⟨v, hv⟩ := ih h
        exact ⟨v, by simp [mapGet, hak, hv]⟩

/-! ## Decimal rendering is injective -/

theorem digitVal_digitChar (d : Nat) (h : d < 10) : digitVal (Nat.digitChar d) = d := by
  interval_cases d <;> rfl

theorem foldl_toDigitsCore (fuel : Nat) :
    ∀ (n : Nat) (ds : List Char), n < fuel →
      (Nat.toDigitsCore 10 fuel n ds).foldl (fun a c => 10 * a + digitVal c) 0
        = ds.foldl (fun a c => 10 * a + digitVal c) n := by
  induction fuel with
  | zero => intro n ds h; omega
  | succ fuel ih =>
    intro n ds h
    simp only [Nat.toDigitsCore]
    have hd : digitVal (Nat.digitChar (n % 10)) = n % 10 :=
      digitVal_digitChar _ (Nat.mod_lt _ (by decide))
    by_cases h0 : n / 10 = 0
    · simp only [h0, if_true, List.foldl_cons, hd]
      have : n % 10 = n := Nat.mod_eq_of_lt (by omega)
      simp [this]
    · simp only [h0, if_false]
      rw [ih (n / 10) _ (by omega)]
      simp only [List.foldl_cons, hd]
      have : 10 * (n / 10) + n % 10 = n := Nat.div_add_mod n 10
      rw [this]

theorem fmtNat_injective : Function.Injective fmtNat := by
  intro a b h
  have hd : Nat.toDigits 10 a = Nat.toDigits 10 b := by
    have h' : (Nat.toDigits 10 a).asString = (Nat.toDigits 10 b).asString := h
    exact congrArg String.data h'
  have ha := foldl_toDigitsCore (a + 1) a [] (by omega)
  have hb := foldl_toDigitsCore (b + 1) b [] (by omega)
  simp only [List.foldl_nil] at ha hb
  unfold Nat.toDigits at hd
  rw [hd] at ha
  omega

theorem suffix_candidate_injective (namespaced : String) (a b : Nat)
    (h : namespaced ++ "_" ++ fmtNat a = namespaced ++ "_" ++ fmtNat b) : a = b := by
  apply fmtNat_injective
  have h' := congrArg String.data h
  simp only [String.data_append, List.append_assoc] at h'
  have hdata := List.append_cancel_left (List.append_cancel_left h')
  exact String.ext hdata

/-! ## The suffix loop terminates with an unused name -/

theorem suffixLoop_spec (used : List String) (namespaced : String) (fuel : Nat) :
    ∀ (counter : Nat) (pending : List String), pending.length < fuel →
      (∀ k, counter ≤ k → namespaced ++ "_" ++ fmtNat k ∈ used →
        namespaced ++ "_" ++ fmtNat k ∈ pending) →
      ∃ name, suffixLoop used namespaced fuel counter = .ok name ∧ name ∉ used := by
  induction fuel with
  | zero => intro counter pending h; omega
  | succ fuel ih =>
    intro counter pending hlen hpend
    by_cases hmem : namespaced ++ "_" ++ fmtNat counter ∈ used
    · have hp := hpend counter (Nat.le_refl _) hmem
      have hlen' : (pending.erase (namespaced ++ "_" ++ fmtNat counter)).length < fuel := by
        rw [List.length_erase_of_mem hp]
        have : 0 < pending.length := List.length_pos_of_mem hp
        omega
      obtain ⟨name, hname, hnot⟩ := ih (counter + 1)
        (pending.erase (namespaced ++ "_" ++ fmtNat counter)) hlen' (by
          intro k hk hku
          have hkp := hpend k (by omega) hku
          have hne : namespaced ++ "_" ++ fmtNat k ≠ namespaced ++ "_" ++ fmtNat counter := by
            intro heq
            have := suffix_candidate_injective namespaced k counter heq
            omega
          exact (List.mem_erase_of_ne hne).2 hkp)
      exact ⟨name, by simp only [suffixLoop, hmem, if_true, hname], hnot⟩
    · exact ⟨_, by simp only [suffixLoop, hmem, if_false], hmem⟩

theorem pickName_spec (base namespaced : String) (used : List String) (fuel : Nat)
    (hfuel : used.length < fuel) :
    ∃ name,
      (if ¬ base ∈ used then (.ok (base, base :: used) : Except Fault (String × List String))
       else if ¬ namespaced ∈ used then .ok (namespaced, namespaced :: used)
       else do
        let unique ← suffixLoop used namespaced fuel 1
        .ok (unique, unique :: used)) = .ok (name, name :: used) ∧ name ∉ used := by
  by_cases h1 : base ∈ used
  · by_cases h2 : namespaced ∈ used
    · obtain ⟨name, hname, hnot⟩ := suffixLoop_spec used namespaced fuel 1 used hfuel
        (fun _ _ h => h)
      refine ⟨name, ?_, hnot⟩
      simp only [h1, h2, not_true_eq_false, if_false, hname, bind, Except.bind]
    · exact ⟨namespaced, by simp only [h1, h2, not_true_eq_false, not_false_eq_true,
        if_false, if_true], h2⟩
  · exact ⟨base, by simp only [h1, not_false_eq_true, if_true], h1⟩

theorem getUniqueTypeName_spec (reserved : ReservedNames) (fuel : Nat) (title refName : String)
    (used : List String) (hfuel : used.length < fuel) :
    ∃ name, getUniqueTypeName reserved fuel title refName used = .ok (name, name :: used)
      ∧ name ∉ used := by
  unfold getUniqueTypeName
  exact pickName_spec _ _ used fuel hfuel

/-! ## The name loop of `Generator.Generate` -/

theorem nameStep_spec (reserved : ReservedNames) (fuel : Nat) (st : NameState)
    (entry : String × PlutusDefinition) (hinv : NameInv st)
    (hfuel : st.usedNames.length < fuel) :
    ∃ st', nameStep reserved fuel st entry = .ok st' ∧ NameInv st' ∧
      st'.usedNames.length = st.usedNames.length + 1 ∧
      (∃ n, mapGet st'.chosenNames entry.1 = some n) ∧
      (∀ r n, mapGet st.chosenNames r = some n → ∃ n', mapGet st'.chosenNames r = some n') := by
  obtain ⟨name, hname, hnot⟩ := getUniqueTypeName_spec reserved fuel
    (if entry.2.Title = "" then entry.1 else entry.2.Title) entry.1 st.usedNames hfuel
  refine ⟨{ usedNames := name :: st.usedNames,
            chosenNames := mapSet st.chosenNames entry.1 name }, ?_, ⟨?_, ?_⟩, ?_, ?_, ?_⟩
  · simp only [nameStep, hname, bind, Except.bind]
  · intro r n h
    by_cases hr : r = entry.1
    · subst hr
      rw [mapGet_mapSet_self] at h
      injection h with h
      subst h
      exact List.mem_cons_self _ _
    · rw [mapGet_mapSet_ne _ _ _ _ hr] at h
      exact List.mem_cons_of_mem _ (hinv.1 r n h)
  · intro r₁ r₂ n hne h₁ h₂
    simp only at h₁ h₂
    by_cases hr₁ : r₁ = entry.1
    · have hr₂ : r₂ ≠ entry.1 := fun hh => hne (hr₁.trans hh.symm)
      rw [hr₁, mapGet_mapSet_self] at h₁
      rw [mapGet_mapSet_ne _ _ _ _ hr₂] at h₂
      injection h₁ with h₁
      exact hnot (h₁ ▸ hinv.1 r₂ n h₂)
    · rw [mapGet_mapSet_ne _ _ _ _ hr₁] at h₁
      by_cases hr₂ : r₂ = entry.1
      · rw [hr₂, mapGet_mapSet_self] at h₂
        injection h₂ with h₂
        exact hnot (h₂ ▸ hinv.1 r₁ n h₁)
      · rw [mapGet_mapSet_ne _ _ _ _ hr₂] at h₂
        exact hinv.2 r₁ r₂ n hne h₁ h₂
  · rfl
  · exact ⟨name, mapGet_mapSet_self _ _ _⟩
  · intro r n h
    by_cases hr : r = entry.1
    · exact ⟨name, by rw [hr]; exact mapGet_mapSet_self _ _ _⟩
    · exact ⟨n, by simp only; rw [mapGet_mapSet_ne _ _ _ _ hr]; exact h⟩

theorem nameLoop_spec (reserved : ReservedNames) (fuel : Nat) (entries : Definitions) :
    ∀ st : NameState, NameInv st → st.usedNames.length + entries.length ≤ fuel →
      ∃ st', entries.foldlM (nameStep reserved fuel) st = .ok st' ∧ NameInv st' ∧
        (∀ r ∈ mapKeys entries, ∃ n, mapGet st'.chosenNames r = some n) ∧
        (∀ r n, mapGet st.chosenNames r = some n → ∃ n', mapGet st'.chosenNames r = some n') := by
  induction entries with
  | nil =>
    intro st hinv _
    exact ⟨st, rfl, hinv, by simp [mapKeys], fun r n h => ⟨n, h⟩⟩
  | cons e rest ih =>
    intro st hinv hfuel
    simp only [List.length_cons] at hfuel
    obtain ⟨st₁, hstep, hinv₁, hlen₁, hnew, hkeep₁⟩ :=
      nameStep_spec reserved fuel st e hinv (by omega)
    obtain ⟨st₂, hloop, hinv₂, hall, hkeep₂⟩ := ih st₁ hinv₁ (by omega)
    refine ⟨st₂, ?_, hinv₂, ?_, ?_⟩
    · simp only [List.foldlM_cons, hstep, bind, Except.bind]
      exact hloop
    · intro r hr
      simp only [mapKeys, List.map_cons, List.mem_cons] at hr
      rcases hr with hr | hr
      · obtain ⟨n, hn⟩ := hnew
        exact hkeep₂ r n (hr ▸ hn)
      · exact hall r hr
    · intro r n h
      obtain ⟨n', hn'⟩ := hkeep₁ r n h
      exact hkeep₂ r n' hn'

/-! ## `scan` only records keys of the schema -/

theorem bind_eq_ok {α β : Type} (m : Except Fault α) (f : α → Except Fault β) (r : β)
    (h : (m >>= f) = .ok r) : ∃ a, m = .ok a ∧ f a = .ok r := by
  cases m with
  | error e => simp [bind, Except.bind] at h
  | ok a => exact ⟨a, rfl, h⟩

theorem growsByKeys_refl (defs : Definitions) (s : List String) : GrowsByKeys defs s s :=
  fun _ hx => Or.inl hx

theorem growsByKeys_trans {defs : Definitions} {s₁ s₂ s₃ : List String}
    (h₁ : GrowsByKeys defs s₁ s₂) (h₂ : GrowsByKeys defs s₂ s₃) : GrowsByKeys defs s₁ s₃ := by
  intro x hx
  rcases h₂ x hx with h | h
  · exact h₁ x h
  · exact Or.inr h

theorem setAdd_grows (defs : Definitions) (s : List String) (r : String)
    (h : (mapGet defs r).isSome) : GrowsByKeys defs s (setAdd s r) := by
  intro x hx
  unfold setAdd at hx
  split at hx
  · exact Or.inl hx
  · rcases List.mem_append.1 hx with hx | hx
    · exact Or.inl hx
    · right
      have hxr : x = r := by simpa using hx
      obtain ⟨v, hv⟩ := Option.isSome_iff_exists.1 h
      exact hxr ▸ mem_mapKeys_of_mapGet defs r v hv

theorem scanOpt_sound {defs : Definitions}
    {self : ScanArg → List String → Except Fault (List String)} (hself : ScanSound defs self)
    (p : Option PlutusDefinition) (s s' : List String) (h : scanOpt self p s = .ok s') :
    GrowsByKeys defs s s' := by
  cases p with
  | none =>
    simp only [scanOpt] at h
    injection h with h
    exact h ▸ growsByKeys_refl defs s
  | some d => exact hself _ _ _ h

theorem scanDefRef_sound {defs : Definitions}
    {self : ScanArg → List String → Except Fault (List String)} (hself : ScanSound defs self)
    (ref : String) (s s' : List String) (h : scanDefRef defs self ref s = .ok s') :
    GrowsByKeys defs s s' := by
  unfold scanDefRef at h
  split at h
  · simp only at h
    split at h
    · split at h
      · split at h
        · obtain ⟨keys, _, h⟩ := bind_eq_ok _ _ _ h
          obtain ⟨s₁, h₁, h⟩ := bind_eq_ok _ _ _ h
          obtain ⟨values, _, h⟩ := bind_eq_ok _ _ _ h
          exact growsByKeys_trans (hself _ _ _ h₁) (hself _ _ _ h)
        · split at h
          · exact hself _ _ _ h
          · injection h with h
            exact h ▸ growsByKeys_refl defs s
      · injection h with h
        exact h ▸ growsByKeys_refl defs s
    · split at h
      · rename_i hsome
        injection h with h
        exact h ▸ setAdd_grows defs s _ hsome
      · injection h with h
        exact h ▸ growsByKeys_refl defs s
  · injection h with h
    exact h ▸ growsByKeys_refl defs s

theorem scanFieldRef_sound {defs : Definitions}
    {self : ScanArg → List String → Except Fault (List String)} (hself : ScanSound defs self)
    (ref : String) (s s' : List String) (h : scanFieldRef defs self ref s = .ok s') :
    GrowsByKeys defs s s' := by
  unfold scanFieldRef at h
  split at h
  · simp only at h
    split at h
    · split at h
      · split at h
        · exact hself _ _ _ h
        · injection h with h
          exact h ▸ growsByKeys_refl defs s
      · injection h with h
        exact h ▸ growsByKeys_refl defs s
    · split at h
      · rename_i hsome
        injection h with h
        exact h ▸ setAdd_grows defs s _ hsome
      · injection h with h
        exact h ▸ growsByKeys_refl defs s
  · injection h with h
    exact h ▸ growsByKeys_refl defs s

theorem foldlM_grows {α : Type} (defs : Definitions)
    (f : List String → α → Except Fault (List String)) (l : List α)
    (hf : ∀ a s s', f s a = .ok s' → GrowsByKeys defs s s') :
    ∀ s s', l.foldlM f s = .ok s' → GrowsByKeys defs s s' := by
  induction l with
  | nil =>
    intro s s' h
    simp only [List.foldlM_nil, pure, Except.pure] at h
    injection h with h
    exact h ▸ growsByKeys_refl defs s
  | cons a rest ih =>
    intro s s' h
    simp only [List.foldlM_cons] at h
    obtain ⟨s₁, h₁, h⟩ := bind_eq_ok _ _ _ h
    exact growsByKeys_trans (hf a s s₁ h₁) (ih s₁ s' h)

theorem scan_sound (defs : Definitions) : ∀ fuel, ScanSound defs (scan defs fuel) := by
  intro fuel
  induction fuel with
  | zero =>
    intro v s s' h
    simp [scan] at h
  | succ fuel ih =>
    intro v s s' h
    cases v with
    | inl d =>
      simp only [scan] at h
      obtain ⟨s₁, h₁, h⟩ := bind_eq_ok _ _ _ h
      obtain ⟨s₂, h₂, h⟩ := bind_eq_ok _ _ _ h
      obtain ⟨s₃, h₃, h⟩ := bind_eq_ok _ _ _ h
      obtain ⟨s₄, h₄, h⟩ := bind_eq_ok _ _ _ h
      obtain ⟨s₅, h₅, h⟩ := bind_eq_ok _ _ _ h
      have g₁ := scanDefRef_sound ih _ _ _ h₁
      have g₂ := foldlM_grows defs _ _ (fun a s s' hh => ih (.inl a) s s' hh) _ _ h₂
      have g₃ := foldlM_grows defs _ _ (fun a s s' hh => ih (.inr a) s s' hh) _ _ h₃
      have g₄ := scanOpt_sound ih _ _ _ h₄
      have g₅ := scanOpt_sound ih _ _ _ h₅
      have g₆ := scanOpt_sound ih _ _ _ h
      exact growsByKeys_trans (growsByKeys_trans (growsByKeys_trans (growsByKeys_trans
        (growsByKeys_trans g₁ g₂) g₃) g₄) g₅) g₆
    | inr f =>
      simp only [scan] at h
      obtain ⟨s₁, h₁, h⟩ := bind_eq_ok _ _ _ h
      exact growsByKeys_trans (scanFieldRef_sound ih _ _ _ h₁) (scanOpt_sound ih _ _ _ h)

/-! ## The depth-first traversal -/

theorem extends_refl (S : OrderState) : Extends S S :=
  ⟨fun _ h => h, [], by simp, by simp, fun _ h => Or.inl h⟩

theorem extends_trans {S₁ S₂ S₃ : OrderState} (h₁ : Extends S₁ S₂) (h₂ : Extends S₂ S₃) :
    Extends S₁ S₃ := by
  obtain ⟨hv₁, e₁, ho₁, hn₁, hc₁⟩ := h₁
  obtain ⟨hv₂, e₂, ho₂, hn₂, hc₂⟩ := h₂
  refine ⟨fun x hx => hv₂ x (hv₁ x hx), e₁ ++ e₂, ?_, ?_, ?_⟩
  · rw [ho₂, ho₁, List.append_assoc]
  · intro x hx
    rcases List.mem_append.1 hx with hx | hx
    · exact hn₁ x hx
    · exact fun hxv => hn₂ x hx (hv₁ x hxv)
  · intro x hx
    rcases hc₂ x hx with hx | hx
    · rcases hc₁ x hx with hx | hx
      · exact Or.inl hx
      · exact Or.inr (List.mem_append.2 (Or.inl hx))
    · exact Or.inr (List.mem_append.2 (Or.inr hx))

theorem extends_finalOrder_subset {S S' : OrderState} (h : Extends S S') :
    ∀ x ∈ S.finalOrder, x ∈ S'.finalOrder := by
  obtain ⟨_, e, ho, _, _⟩ := h
  intro x hx
  rw [ho]
  exact List.mem_append.2 (Or.inl hx)

theorem length_filter_lt_of_imp {α : Type} (l : List α) (p q : α → Bool)
    (himp : ∀ a, p a = true → q a = true) (r : α) (hr : r ∈ l) (hq : q r = true)
    (hp : p r = false) : (l.filter p).length < (l.filter q).length := by
  induction l with
  | nil => simp at hr
  | cons a rest ih =>
    have hle : (rest.filter p).length ≤ (rest.filter q).length :=
      (List.monotone_filter_right rest himp).length_le
    rcases List.mem_cons.1 hr with hra | hrr
    · subst hra
      simp only [List.filter_cons, hq, hp, if_true, Bool.false_eq_true, if_false,
        List.length_cons]
      omega
    · have := ih hrr
      simp only [List.filter_cons]
      cases hpa : p a with
      | true =>
        simp only [himp a hpa, if_true, List.length_cons]
        omega
      | false =>
        cases hqa : q a with
        | true =>
          simp only [Bool.false_eq_true, if_true, if_false, List.length_cons]
          omega
        | false =>
          simp only [Bool.false_eq_true, if_false]
          exact this

theorem unvisited_mono (defs : Definitions) {S S' : OrderState} (h : Extends S S') :
    unvisited defs S' ≤ unvisited defs S := by
  unfold unvisited
  apply List.Sublist.length_le
  apply List.monotone_filter_right
  intro a ha
  simp only [decide_eq_true_eq] at ha ⊢
  exact fun hav => ha (h.1 a hav)

theorem unvisited_mark (defs : Definitions) (S : OrderState) (r : String)
    (hr : r ∈ mapKeys defs) (hnv : r ∉ S.visited) (memo : DepMemo) :
    unvisited defs { visited := r :: S.visited, finalOrder := S.finalOrder, depMemo := memo }
      < unvisited defs S := by
  unfold unvisited
  apply length_filter_lt_of_imp _ _ _ _ r hr
  · simpa using hnv
  · simp
  · intro a ha
    simp only [decide_eq_true_eq, List.mem_cons, not_or] at ha ⊢
    exact ha.2

theorem noGrayReach_of_extends {D : String → List String} {r : String} {S S' : OrderState}
    (h : NoGrayReach D r S) (he : Extends S S') : NoGrayReach D r S' := by
  intro g hgv hgo
  obtain ⟨_, e, ho, _, hc⟩ := he
  rcases hc g hgv with hg | hg
  · exact h g hg (fun hgo' => hgo (by rw [ho]; exact List.mem_append.2 (Or.inl hgo')))
  · exact absurd (by rw [ho]; exact List.mem_append.2 (Or.inr hg)) hgo

theorem mem_finalOrder_of_noGray {D : String → List String} {r : String} {S S' : OrderState}
    (h : NoGrayReach D r S) (he : Extends S S') (hr : r ∈ S'.visited) : r ∈ S'.finalOrder := by
  by_contra hno
  exact (noGrayReach_of_extends h he) r hr hno Relation.ReflTransGen.refl

theorem topoSorted_append {D : String → List String} {order : List String} {r : String}
    (h : TopoSorted D order) (hr : r ∉ order) (hd : ∀ d ∈ D r, d ∈ order) :
    TopoSorted D (order ++ [r]) := by
  intro x hx d hdx
  rcases List.mem_append.1 hx with hx | hx
  · obtain ⟨hdo, hlt⟩ := h x hx d hdx
    refine ⟨List.mem_append.2 (Or.inl hdo), ?_⟩
    rw [List.indexOf_append_of_mem hdo, List.indexOf_append_of_mem hx]
    exact hlt
  · have hxr : x = r := by simpa using hx
    subst hxr
    have hdo := hd d hdx
    refine ⟨List.mem_append.2 (Or.inl hdo), ?_⟩
    rw [List.indexOf_append_of_mem hdo, List.indexOf_append_of_not_mem hr]
    have := List.indexOf_lt_length.2 hdo
    omega

theorem visitList_spec (enum : MapOrder) (defs : Definitions) (scanFuel : Nat)
    (D : String → List String) (fuel : Nat) (hV : VisitSpec enum defs scanFuel D fuel) :
    ∀ (l : List String), (∀ d ∈ l, d ∈ mapKeys defs) →
      ∀ S, GoodState defs S → unvisited defs S < fuel →
      ∃ S', l.foldlM (fun st dep => visit enum defs scanFuel fuel dep st) S = .ok S' ∧
        GoodState defs S' ∧ Extends S S' ∧ (∀ d ∈ l, d ∈ S'.visited) ∧
        ((∀ x, ¬ Relation.TransGen (fun a b => b ∈ D a) x x) →
          (∀ d ∈ l, NoGrayReach D d S) → TopoSorted D S.finalOrder →
          TopoSorted D S'.finalOrder) := by
  intro l
  induction l with
  | nil =>
    intro _ S hg _
    exact ⟨S, rfl, hg, extends_refl S, by simp, fun _ _ ht => ht⟩
  | cons d rest ih =>
    intro hl S hg hfuel
    obtain ⟨S₁, hv₁, hg₁, he₁, hd₁, ht₁⟩ := hV d S (hl d (List.mem_cons_self _ _)) hg hfuel
    obtain ⟨S₂, hv₂, hg₂, he₂, hd₂, ht₂⟩ :=
      ih (fun x hx => hl x (List.mem_cons_of_mem _ hx)) S₁ hg₁
        (Nat.lt_of_le_of_lt (unvisited_mono defs he₁) hfuel)
    refine ⟨S₂, ?_, hg₂, extends_trans he₁ he₂, ?_, ?_⟩
    · simp only [List.foldlM_cons, hv₁, bind, Except.bind]
      exact hv₂
    · intro x hx
      rcases List.mem_cons.1 hx with hx | hx
      · exact he₂.1 x (hx ▸ hd₁)
      · exact hd₂ x hx
    · intro hac hng ht
      exact ht₂ hac
        (fun x hx => noGrayReach_of_extends (hng x (List.mem_cons_of_mem _ hx)) he₁)
        (ht₁ hac (hng d (List.mem_cons_self _ _)) ht)

theorem visit_spec (enum : MapOrder) (defs : Definitions) (scanFuel : Nat)
    (D : String → List String) (hD : DepsFor enum defs scanFuel D) :
    ∀ fuel, VisitSpec enum defs scanFuel D fuel := by
  intro fuel
  induction fuel with
  | zero => intro r S _ _ h; omega
  | succ fuel ih =>
    intro r S hr hg hfuel
    by_cases hrv : r ∈ S.visited
    · exact ⟨S, by simp only [visit, hrv, if_true], hg, extends_refl S, hrv, fun _ _ ht => ht⟩
    · obtain ⟨hnd, hov, hvk, hmv⟩ := hg
      have hmemo : mapGet S.depMemo r = none := by
        cases hm : mapGet S.depMemo r with
        | none => rfl
        | some ds => exact absurd (hmv r ds hm) hrv
      have hcol := hD.1 r hr S.depMemo hmemo
      have hg₁ : GoodState defs
          { visited := r :: S.visited, finalOrder := S.finalOrder,
            depMemo := mapSet S.depMemo r (D r) } := by
        refine ⟨hnd, fun x hx => List.mem_cons_of_mem _ (hov x hx), ?_, ?_⟩
        · intro x hx
          rcases List.mem_cons.1 hx with hx | hx
          · exact hx ▸ hr
          · exact hvk x hx
        · intro x ds hx
          by_cases hxr : x = r
          · exact hxr ▸ List.mem_cons_self _ _
          · simp only at hx
            rw [mapGet_mapSet_ne _ _ _ _ hxr] at hx
            exact List.mem_cons_of_mem _ (hmv x ds hx)
      have hfuel₁ := unvisited_mark defs S r hr hrv (mapSet S.depMemo r (D r))
      obtain ⟨S₃, hv₃, hg₃, he₃, hd₃, ht₃⟩ :=
        visitList_spec enum defs scanFuel D fuel ih (D r) (hD.2 r hr) _ hg₁ (by omega)
      obtain ⟨hv, e, ho, hn, hc⟩ := he₃
      have hrno : r ∉ S₃.finalOrder := by
        rw [ho]
        intro hmem
        rcases List.mem_append.1 hmem with hmem | hmem
        · exact hrv (hov r hmem)
        · exact hn r hmem (List.mem_cons_self _ _)
      refine ⟨{ S₃ with finalOrder := S₃.finalOrder ++ [r] }, ?_, ?_, ?_, ?_, ?_⟩
      · simp only [visit, hrv, if_false, hcol, bind, Except.bind, hv₃]
      · obtain ⟨hnd₃, hov₃, hvk₃, hmv₃⟩ := hg₃
        refine ⟨?_, ?_, hvk₃, hmv₃⟩
        · exact List.Nodup.append hnd₃ (List.nodup_singleton r)
            (by
              intro x hx₁ hx₂
              have : x = r := by simpa using hx₂
              exact hrno (this ▸ hx₁))
        · intro x hx
          rcases List.mem_append.1 hx with hx | hx
          · exact hov₃ x hx
          · have : x = r := by simpa using hx
            exact this ▸ hv r (List.mem_cons_self _ _)
      · refine ⟨fun x hx => hv x (List.mem_cons_of_mem _ hx), e ++ [r], ?_, ?_, ?_⟩
        · simp only [ho, List.append_assoc]
        · intro x hx
          rcases List.mem_append.1 hx with hx | hx
          · exact fun hxv => hn x hx (List.mem_cons_of_mem _ hxv)
          · have : x = r := by simpa using hx
            exact this ▸ hrv
        · intro x hx
          rcases hc x hx with hx | hx
          · rcases List.mem_cons.1 hx with hx | hx
            · exact Or.inr (List.mem_append.2 (Or.inr (by simp [hx])))
            · exact Or.inl hx
          · exact Or.inr (List.mem_append.2 (Or.inl hx))
      · exact hv r (List.mem_cons_self _ _)
      · intro hac hng ht
        have hng₁ : ∀ d ∈ D r, NoGrayReach D d
            { visited := r :: S.visited, finalOrder := S.finalOrder,
              depMemo := mapSet S.depMemo r (D r) } := by
          intro d hd g hgv hgo hreach
          rcases List.mem_cons.1 hgv with hgr | hgv
          · subst hgr
            exact hac g (Relation.TransGen.head' hd hreach)
          · exact hng g hgv hgo (Relation.ReflTransGen.head hd hreach)
        have ht₃' := ht₃ hac hng₁ ht
        apply topoSorted_append ht₃' hrno
        intro d hd
        exact mem_finalOrder_of_noGray (hng₁ d hd) ⟨hv, e, ho, hn, hc⟩ (hd₃ d hd)

theorem depsFor_keyDeps (enum : MapOrder) (defs : Definitions) (scanFuel : Nat)
    (henum : ∀ r l, (enum r l).Perm l) (hret : AnalysisReturns enum defs scanFuel) :
    DepsFor enum defs scanFuel (keyDeps enum defs scanFuel) := by
  have key : ∀ r ∈ mapKeys defs, ∃ s,
      scan defs scanFuel (.inl ((mapGet defs r).getD PlutusDefinition.zero)) [] = .ok s ∧
      keyDeps enum defs scanFuel r = enum r s := by
    intro r hr
    have h := hret r hr
    cases hs : scan defs scanFuel (.inl ((mapGet defs r).getD PlutusDefinition.zero)) [] with
    | error e =>
      simp [CollectDependenciesMemo, mapGet, hs, bind, Except.bind, Returns] at h
    | ok s =>
      refine ⟨s, rfl, ?_⟩
      simp [keyDeps, hr, directDeps, CollectDependenciesMemo, mapGet, hs, bind, Except.bind]
  constructor
  · intro r hr memo hm
    obtain ⟨s, hs, hk⟩ := key r hr
    simp only [CollectDependenciesMemo, hm, hs, bind, Except.bind, hk]
  · intro r hr d hd
    obtain ⟨s, hs, hk⟩ := key r hr
    rw [hk] at hd
    have hds : d ∈ s := (henum r s).subset hd
    rcases scan_sound defs scanFuel _ _ _ hs d hds with h | h
    · simp at h
    · exact h

theorem sortStrings_perm (l : List String) : (sortStrings l).Perm l :=
  List.perm_insertionSort strLE l

theorem finalOrder_spec (enum : MapOrder) (defs : Definitions) (scanFuel fuel : Nat)
    (D : String → List String) (hD : DepsFor enum defs scanFuel D)
    (hfuel : (mapKeys defs).length < fuel) :
    ∃ order, TypeScriptGenerator.finalOrder enum defs scanFuel fuel = .ok order ∧
      GoGenerator.finalOrder enum defs scanFuel fuel = .ok order ∧ order.Nodup ∧
      (∀ x, x ∈ order ↔ x ∈ mapKeys defs) ∧
      ((∀ x, ¬ Relation.TransGen (fun a b => b ∈ D a) x x) → TopoSorted D order) := by
  have hS₀ : GoodState defs { visited := [], finalOrder := [], depMemo := [] } :=
    ⟨List.nodup_nil, by simp, by simp, by simp [mapGet]⟩
  have hm : unvisited defs { visited := [], finalOrder := [], depMemo := [] } < fuel := by
    unfold unvisited
    exact Nat.lt_of_le_of_lt (List.length_filter_le _ _) hfuel
  obtain ⟨S, hv, hg, he, hall, ht⟩ :=
    visitList_spec enum defs scanFuel D fuel (visit_spec enum defs scanFuel D hD fuel)
      (sortStrings (mapKeys defs)) (fun d hd => (sortStrings_perm _).subset hd) _ hS₀ hm
  obtain ⟨hnd, hov, hvk, _⟩ := hg
  obtain ⟨_, e, ho, _, hc⟩ := he
  refine ⟨S.finalOrder, ?_, ?_, hnd, ?_, ?_⟩
  · simp only [TypeScriptGenerator.finalOrder, hv, bind, Except.bind]
  · simp only [GoGenerator.finalOrder, hv, bind, Except.bind]
  · intro x
    constructor
    · exact fun hx => hvk x (hov x hx)
    · intro hx
      have hxv := hall x ((sortStrings_perm _).symm.subset hx)
      rcases hc x hxv with h | h
      · simp at h
      · rw [ho]
        exact List.mem_append.2 (Or.inr h)
  · intro hac
    exact ht hac (fun d _ g hg => by simp at hg) (fun x hx => by simp at hx)

theorem acyclic_keyDeps (enum : MapOrder) (defs : Definitions) (scanFuel : Nat)
    (hac : Acyclic enum defs scanFuel) :
    ∀ x, ¬ Relation.TransGen (fun a b => b ∈ keyDeps enum defs scanFuel a) x x := by
  intro x hx
  apply hac x
  refine Relation.TransGen.mono ?_ hx
  intro a b hab
  unfold keyDeps at hab
  split at hab
  · rename_i ha
    exact ⟨ha, hab⟩
  · simp at hab

theorem acyclic_of_rank (enum : MapOrder) (defs : Definitions) (scanFuel : Nat)
    (rank : String → Nat)
    (h : ∀ r d, DependsOn enum defs scanFuel r d → rank d < rank r) :
    Acyclic enum defs scanFuel := by
  have key : ∀ a b, Relation.TransGen (DependsOn enum defs scanFuel) a b → rank b < rank a := by
    intro a b hab
    induction hab with
    | single hab => exact h _ _ hab
    | tail _ hbc ih => exact Nat.lt_trans (h _ _ hbc) ih
  intro r hr
  exact Nat.lt_irrefl _ (key r r hr)

/-! ## Claims -/

/-- C1: whatever the schema, the reserved names and the order in which the definitions are
processed (the order of `entries`), the name loop of `Generator.Generate` returns a mapping
that has an entry for every reference name and gives distinct reference names distinct
identifiers. The loop needs no more fuel than there are definitions. -/
theorem chosenNames_total_distinct (reserved : ReservedNames) (fuel : Nat)
    (entries : Definitions) (hfuel : entries.length ≤ fuel) :
    ∃ chosen, Generator.chosenNames reserved fuel entries = .ok chosen ∧
      (∀ r ∈ mapKeys entries, ∃ n, mapGet chosen r = some n) ∧
      (∀ r₁ r₂ n₁ n₂, r₁ ≠ r₂ → mapGet chosen r₁ = some n₁ →
        mapGet chosen r₂ = some n₂ → n₁ ≠ n₂) := by
  obtain ⟨st, hloop, hinv, hall, _⟩ := nameLoop_spec reserved fuel entries
    { usedNames := [], chosenNames := [] }
    ⟨fun r n h => by simp [mapGet] at h, fun r₁ r₂ n _ h => by simp [mapGet] at h⟩
    (by simpa using hfuel)
  refine ⟨st.chosenNames, ?_, hall, ?_⟩
  · simp only [Generator.chosenNames, hloop, bind, Except.bind]
  · intro r₁ r₂ n₁ n₂ hne h₁ h₂ heq
    exact hinv.2 r₁ r₂ n₁ hne h₁ (heq ▸ h₂)

/-- C1 at the end-to-end schema with the default reserved names. -/
theorem chosenNames_total_distinct_witness :
    endToEndSchema.length ≤ 2 ∧
    ∃ chosen, Generator.chosenNames defaultReservedNames 2 endToEndSchema = .ok chosen ∧
      (∀ r ∈ mapKeys endToEndSchema, ∃ n, mapGet chosen r = some n) ∧
      (∀ r₁ r₂ n₁ n₂, r₁ ≠ r₂ → mapGet chosen r₁ = some n₁ →
        mapGet chosen r₂ = some n₂ → n₁ ≠ n₂) :=
  ⟨by decide, chosenNames_total_distinct defaultReservedNames 2 endToEndSchema (by decide)⟩

theorem endToEndSchema_acyclic : Acyclic insertionOrder endToEndSchema 4 := by
  apply acyclic_of_rank _ _ _ (fun r => if r = "B" then 1 else 0)
  intro r d h
  obtain ⟨hr, hd⟩ := h
  have hA : directDeps insertionOrder endToEndSchema 4 "A" = [] := by decide
  have hB : directDeps insertionOrder endToEndSchema 4 "B" = ["A"] := by decide
  have hr' : r = "A" ∨ r = "B" := by simpa [mapKeys, endToEndSchema] using hr
  rcases hr' with hr' | hr'
  · subst hr'
    rw [hA] at hd
    simp at hd
  · subst hr'
    rw [hB] at hd
    have : d = "A" := by simpa using hd
    subst this
    decide

/-- C2: when dependency analysis returns for every reference name and the dependency
relation it computes is acyclic, the emission order of `TypeScriptGenerator.Generate` (and
of `GoGenerator.Generate`) is computed, and every element of `CollectDependenciesMemo(r)`
stands at a strictly smaller index than `r` in it, for every reference name `r`. -/
theorem finalOrder_dependencies_first (enum : MapOrder) (defs : Definitions)
    (scanFuel fuel : Nat) (henum : ∀ r l, (enum r l).Perm l)
    (hret : AnalysisReturns enum defs scanFuel) (hac : Acyclic enum defs scanFuel)
    (hfuel : (mapKeys defs).length < fuel) :
    ∃ order, TypeScriptGenerator.finalOrder enum defs scanFuel fuel = .ok order ∧
      GoGenerator.finalOrder enum defs scanFuel fuel = .ok order ∧
      ∀ r ∈ mapKeys defs, ∀ d ∈ directDeps enum defs scanFuel r,
        d ∈ order ∧ r ∈ order ∧ order.indexOf d < order.indexOf r := by
  obtain ⟨order, hts, hgo, _, hmem, htopo⟩ :=
    finalOrder_spec enum defs scanFuel fuel (keyDeps enum defs scanFuel)
      (depsFor_keyDeps enum defs scanFuel henum hret) hfuel
  refine ⟨order, hts, hgo, ?_⟩
  intro r hr d hd
  have hro : r ∈ order := (hmem r).2 hr
  have hdk : d ∈ keyDeps enum defs scanFuel r := by
    simp only [keyDeps, hr, if_true]
    exact hd
  obtain ⟨hdo, hlt⟩ := htopo (acyclic_keyDeps enum defs scanFuel hac) r hro d hdk
  exact ⟨hdo, hro, hlt⟩

/-- C2 at the end-to-end schema. -/
theorem finalOrder_dependencies_first_witness :
    ∃ order, TypeScriptGenerator.finalOrder insertionOrder endToEndSchema 4 3 = .ok order ∧
      GoGenerator.finalOrder insertionOrder endToEndSchema 4 3 = .ok order ∧
      ∀ r ∈ mapKeys endToEndSchema, ∀ d ∈ directDeps insertionOrder endToEndSchema 4 r,
        d ∈ order ∧ r ∈ order ∧ order.indexOf d < order.indexOf r :=
  finalOrder_dependencies_first insertionOrder endToEndSchema 4 3
    (fun _ l => List.Perm.refl l) (by unfold AnalysisReturns; decide)
    endToEndSchema_acyclic (by decide)

/-- Whenever dependency analysis returns for every reference name, also on a schema whose
definitions refer to each other cyclically or to themselves, the emission order is
computed and is a permutation of the reference names without repetition. -/
theorem finalOrder_perm (enum : MapOrder) (defs : Definitions) (scanFuel fuel : Nat)
    (henum : ∀ r l, (enum r l).Perm l) (hkeys : (mapKeys defs).Nodup)
    (hret : AnalysisReturns enum defs scanFuel) (hfuel : (mapKeys defs).length < fuel) :
    ∃ order, TypeScriptGenerator.finalOrder enum defs scanFuel fuel = .ok order ∧
      GoGenerator.finalOrder enum defs scanFuel fuel = .ok order ∧
      order.Perm (mapKeys defs) ∧ order.Nodup := by
  obtain ⟨order, hts, hgo, hnd, hmem, _⟩ :=
    finalOrder_spec enum defs scanFuel fuel (keyDeps enum defs scanFuel)
      (depsFor_keyDeps enum defs scanFuel henum hret) hfuel
  exact ⟨order, hts, hgo, (List.perm_ext_iff_of_nodup hnd hkeys).2 hmem, hnd⟩

/-- The permutation result at a schema with a reference cycle and a self-reference. -/
theorem finalOrder_perm_witness :
    ∃ order, TypeScriptGenerator.finalOrder reverseOrder cyclicSchema 4 3 = .ok order ∧
      GoGenerator.finalOrder reverseOrder cyclicSchema 4 3 = .ok order ∧
      order.Perm (mapKeys cyclicSchema) ∧ order.Nodup :=
  finalOrder_perm reverseOrder cyclicSchema 4 3 (fun _ l => List.reverse_perm l) (by decide)
    (by unfold AnalysisReturns; decide) (by decide)

/-- C3 fails on the code: on `nilMapSchema`, whose two keys are distinct and whose
references form no cycle, the ordering pass of `TypeScriptGenerator.Generate` and of
`GoGenerator.Generate` returns no emission order at all: `visit` calls
`CollectDependenciesMemo` for `A`, which dereferences the nil keys of the sentinel
`List$M`, whatever the enumeration order and the fuel. -/
theorem finalOrder_nil_keys :
    (mapKeys nilMapSchema).Nodup ∧
    (∀ (enum : MapOrder) (j k : Nat),
      TypeScriptGenerator.finalOrder enum nilMapSchema (j + 2) (k + 1)
        = .error .nilDereference) ∧
    (∀ (enum : MapOrder) (j k : Nat),
      GoGenerator.finalOrder enum nilMapSchema (j + 2) (k + 1) = .error .nilDereference) ∧
    (∀ (enum : MapOrder) (scanFuel fuel : Nat),
      Returns (TypeScriptGenerator.finalOrder enum nilMapSchema scanFuel fuel) = false) ∧
    (∀ (enum : MapOrder) (scanFuel fuel : Nat),
      Returns (GoGenerator.finalOrder enum nilMapSchema scanFuel fuel) = false) := by
  refine ⟨by decide, fun _ _ _ => rfl, fun _ _ _ => rfl, ?_, ?_⟩
  · intro enum scanFuel fuel
    rcases fuel with _ | fuel
    · rfl
    · rcases scanFuel with _ | _ | scanFuel
      · rfl
      · rfl
      · rfl
  · intro enum scanFuel fuel
    rcases fuel with _ | fuel
    · rfl
    · rcases scanFuel with _ | _ | scanFuel
      · rfl
      · rfl
      · rfl

theorem enum_eq_of_perm (enum : MapOrder) (henum : ∀ r l, (enum r l).Perm l) :
    enum = fun r l =>
      if r = "A" ∧ l = [] then [] else if r = "B" ∧ l = ["A"] then ["A"] else enum r l := by
  funext r l
  by_cases h₁ : r = "A" ∧ l = []
  · rw [if_pos h₁, h₁.1, h₁.2]
    exact List.Perm.eq_nil (henum "A" [])
  · rw [if_neg h₁]
    by_cases h₂ : r = "B" ∧ l = ["A"]
    · rw [if_pos h₂, h₂.1, h₂.2]
      exact List.perm_singleton.1 (henum "B" ["A"])
    · rw [if_neg h₂]

/-- C4: the end-to-end example with the default reserved names, in either order of visiting
the two definitions: the chosen names are `A` and `B`, the emission order is `[A, B]`, the
expression of `A` is `Data.Bytes()` and the expression of `B` is the flattened object whose
field `x` is the named reference `ASchema`. Any fuel from the stated minimum on gives
these results. -/
theorem endToEnd_example (enum : MapOrder) (henum : ∀ r l, (enum r l).Perm l)
    (i j k m : Nat) :
    ∀ defs, defs = endToEndSchema ∨ defs = endToEndSchemaRev →
      ∃ chosen, Generator.chosenNames defaultReservedNames i defs = .ok chosen ∧
        mapGet chosen "A" = some "A" ∧ mapGet chosen "B" = some "B" ∧
        TypeScriptGenerator.finalOrder enum defs (j + 3) (k + 2) = .ok ["A", "B"] ∧
        generateSchemaExpression defs chosen (m + 1)
          ((mapGet defs "A").getD PlutusDefinition.zero) = .ok "Data.Bytes()" ∧
        generateSchemaExpression defs chosen (m + 3)
          ((mapGet defs "B").getD PlutusDefinition.zero)
          = .ok "Data.Object(\x7b x: ASchema \x7d)" := by
  intro defs hdefs
  rw [enum_eq_of_perm enum henum]
  rcases hdefs with h | h
  · subst h
    exact ⟨[("B", "B"), ("A", "A")], rfl, rfl, rfl, rfl, rfl, rfl⟩
  · subst h
    exact ⟨[("A", "A"), ("B", "B")], rfl, rfl, rfl, rfl, rfl, rfl⟩

/-- C4 with the keys of a dependency set enumerated in insertion order and the least fuel. -/
theorem endToEnd_example_witness :
    (∀ r l, (insertionOrder r l).Perm l) ∧
    ∃ chosen, Generator.chosenNames defaultReservedNames 0 endToEndSchema = .ok chosen ∧
      mapGet chosen "A" = some "A" ∧ mapGet chosen "B" = some "B" ∧
      TypeScriptGenerator.finalOrder insertionOrder endToEndSchema (0 + 3) (0 + 2)
        = .ok ["A", "B"] ∧
      generateSchemaExpression endToEndSchema chosen (0 + 1)
        ((mapGet endToEndSchema "A").getD PlutusDefinition.zero) = .ok "Data.Bytes()" ∧
      generateSchemaExpression endToEndSchema chosen (0 + 3)
        ((mapGet endToEndSchema "B").getD PlutusDefinition.zero)
        = .ok "Data.Object(\x7b x: ASchema \x7d)" :=
  ⟨fun _ l => List.Perm.refl l,
   endToEnd_example insertionOrder (fun _ l => List.Perm.refl l) 0 0 0 0 endToEndSchema
     (Or.inl rfl)⟩

theorem generateRefExpressionForField_plain (defs : Definitions) (chosenNames : ChosenNames)
    (fuel : Nat) (field : PlutusField) (href : field.Ref = "") (hitems : field.Items = none) :
    generateRefExpressionForField defs chosenNames (fuel + 1) field = .ok "Data.Any()" := by
  rw [generateRefExpressionForField]
  simp only [href, hitems, ne_eq, not_true_eq_false, if_false]

/-- C5, as the claim states it, fails: for the alternatives `Foo` (no fields) and `Bar` (one
field of type `integer` without reference) no fuel, schema or chosen names make
`generateSchemaExpression` return the union whose `Bar` arm holds `Data.Integer()`. -/
theorem fooBar_integer_counterexample :
    ¬ ∃ (defs : Definitions) (chosenNames : ChosenNames) (fuel : Nat),
      generateSchemaExpression defs chosenNames fuel fooBarDef =
        .ok "Data.Enum([Data.Literal(\"Foo\"), Data.Object(\x7b Bar: Data.Tuple([Data.Integer()]) \x7d)])" := by
  rintro ⟨defs, chosenNames, fuel, h⟩
  have hv : ∀ k, generateSchemaExpression defs chosenNames (k + 4) fooBarDef =
      .ok "Data.Enum([Data.Literal(\"Foo\"), Data.Object(\x7b Bar: Data.Tuple([Data.Any()]) \x7d)])" :=
    fun _ => rfl
  have h₀ : generateSchemaExpression defs chosenNames 0 fooBarDef = .error .fuelExhausted := rfl
  have h₁ : generateSchemaExpression defs chosenNames 1 fooBarDef = .error .fuelExhausted := rfl
  have h₂ : generateSchemaExpression defs chosenNames 2 fooBarDef = .error .fuelExhausted := rfl
  have h₃ : generateSchemaExpression defs chosenNames 3 fooBarDef = .error .fuelExhausted := rfl
  rcases fuel with _ | _ | _ | _ | fuel
  · rw [h₀] at h
    exact absurd h (by decide)
  · rw [h₁] at h
    exact absurd h (by decide)
  · rw [h₂] at h
    exact absurd h (by decide)
  · rw [h₃] at h
    exact absurd h (by decide)
  · rw [hv fuel] at h
    exact absurd h (by decide)

/-- C5 as amended: for a definition whose alternatives are `Foo` (no fields) and `Bar`
(exactly one field, without reference and without items, whatever its type),
`generateSchemaExpression` returns the tagged union whose first arm is the literal tag
`Foo` and whose second arm is an object keyed `Bar` wrapping a one-element tuple that
contains the wildcard `Data.Any()`. -/
theorem generateSchemaExpression_fooBar (defs : Definitions) (chosenNames : ChosenNames)
    (fuel : Nat) (def_ foo bar : PlutusDefinition) (field : PlutusField)
    (hany : def_.AnyOf = [foo, bar])
    (hfooT : foo.Title = "Foo") (hfooF : foo.Fields = [])
    (hbarT : bar.Title = "Bar") (hbarF : bar.Fields = [field])
    (href : field.Ref = "") (hitems : field.Items = none) :
    generateSchemaExpression defs chosenNames (fuel + 4) def_ =
      .ok "Data.Enum([Data.Literal(\"Foo\"), Data.Object(\x7b Bar: Data.Tuple([Data.Any()]) \x7d)])" := by
  have hfoo : generateConstructorInEnum defs chosenNames (fuel + 2) foo
      = .ok "Data.Literal(\"Foo\")" := by
    rw [generateConstructorInEnum]
    simp only [hfooF, hfooT, List.length_nil, if_true]
    rfl
  have hbar : generateConstructorInEnum defs chosenNames (fuel + 2) bar
      = .ok "Data.Object(\x7b Bar: Data.Tuple([Data.Any()]) \x7d)" := by
    rw [generateConstructorInEnum]
    simp only [hbarF, hbarT, List.length_cons, List.length_nil, List.mapM_cons, List.mapM_nil,
      generateRefExpressionForField_plain defs chosenNames fuel field href hitems,
      bind, Except.bind, pure, Except.pure]
    rfl
  have henum : generateEnumExpression defs chosenNames (fuel + 3) [foo, bar]
      = .ok "Data.Enum([Data.Literal(\"Foo\"), Data.Object(\x7b Bar: Data.Tuple([Data.Any()]) \x7d)])" := by
    rw [generateEnumExpression]
    simp only [List.mapM_cons, List.mapM_nil, hfoo, hbar, bind, Except.bind, pure, Except.pure]
    rfl
  rw [generateSchemaExpression]
  simp only [hany, hfooF, henum]
  split <;> rfl

/-- C5 as amended, at `fooBarDef`. -/
theorem generateSchemaExpression_fooBar_witness :
    generateSchemaExpression [] [] (0 + 4) fooBarDef =
      .ok "Data.Enum([Data.Literal(\"Foo\"), Data.Object(\x7b Bar: Data.Tuple([Data.Any()]) \x7d)])" :=
  generateSchemaExpression_fooBar [] [] 0 fooBarDef (altDef "Foo" [])
    (altDef "Bar" [.mk "" "integer" "" none]) (.mk "" "integer" "" none) rfl rfl rfl rfl rfl rfl rfl

theorem generateRefExpressionForField_named (defs : Definitions) (chosenNames : ChosenNames)
    (fuel : Nat) (field : PlutusField) (name : String) (href : field.Ref ≠ "")
    (hsent : strings.HasPrefix (normalizeRef field.Ref) "List$" = false)
    (hname : mapGet chosenNames (normalizeRef field.Ref) = some name) :
    generateRefExpressionForField defs chosenNames (fuel + 1) field = .ok (name ++ "Schema") := by
  rw [generateRefExpressionForField]
  simp only [href, hsent, hname, ne_eq, not_false_eq_true, if_true, Bool.false_eq_true, if_false]

/-- C6: for a definition whose description is the wrapped-redeemer literal and which has
exactly one alternative, of any title, with exactly one field whose reference resolves to
a non-sentinel name that has a chosen name, `generateSchemaExpression` returns the two-arm
union of `Dummy` with an empty tuple and `Wrapped` with the one-element tuple of the chosen
name followed by `Schema`; neither title occurs in the result. -/
theorem generateSchemaExpression_wrapped (defs : Definitions) (chosenNames : ChosenNames)
    (fuel : Nat) (def_ alt : PlutusDefinition) (field : PlutusField) (name : String)
    (hdesc : def_.Description = wrappedRedeemerDescription)
    (hany : def_.AnyOf = [alt]) (hfields : alt.Fields = [field])
    (href : field.Ref ≠ "")
    (hsent : strings.HasPrefix (normalizeRef field.Ref) "List$" = false)
    (hname : mapGet chosenNames (normalizeRef field.Ref) = some name) :
    generateSchemaExpression defs chosenNames (fuel + 2) def_ =
      .ok ("Data.Enum([\n  Data.Object(\x7b Dummy: Data.Tuple([]) \x7d),\n  Data.Object(\x7b Wrapped: Data.Tuple(["
        ++ (name ++ "Schema") ++ "]) \x7d)\n])") := by
  rw [generateSchemaExpression]
  simp only [hdesc, hany, hfields, if_true,
    generateRefExpressionForField_named defs chosenNames fuel field name href hsent hname,
    bind, Except.bind]

/-- C6 at `wrappedDef`, whose alternative has an empty title. -/
theorem generateSchemaExpression_wrapped_witness :
    generateSchemaExpression [("T", leafDef "T" "bytes")] [("T", "MyT")] (0 + 2) wrappedDef =
      .ok ("Data.Enum([\n  Data.Object(\x7b Dummy: Data.Tuple([]) \x7d),\n  Data.Object(\x7b Wrapped: Data.Tuple(["
        ++ ("MyT" ++ "Schema") ++ "]) \x7d)\n])") :=
  generateSchemaExpression_wrapped [("T", leafDef "T" "bytes")] [("T", "MyT")] 0 wrappedDef
    (altDef "" [refField "" "#/definitions/T"]) (refField "" "#/definitions/T") "MyT"
    rfl rfl rfl (by decide) (by decide) (by decide)

/-- C7: for a definition with an items sub-definition whose expression is `itemExpr`,
`generateListExpressionFromDef` returns `Data.Array(itemExpr)` when no constraint is
present, and otherwise `Data.Array(itemExpr, { opts })` where the options are, in this
order, `minItems` when nonzero, `maxItems` when nonzero and `uniqueItems` when true. -/
theorem generateListExpressionFromDef_options (defs : Definitions) (chosenNames : ChosenNames)
    (fuel : Nat) (def_ items : PlutusDefinition) (itemExpr : String)
    (hitems : def_.Items = some items)
    (hexpr : generateRefExpressionForDef defs chosenNames fuel items = .ok itemExpr) :
    generateListExpressionFromDef defs chosenNames (fuel + 1) def_ =
      .ok (if def_.MinItems = 0 ∧ def_.MaxItems = 0 ∧ def_.UniqueItems = false then
          "Data.Array(" ++ itemExpr ++ ")"
        else
          "Data.Array(" ++ itemExpr ++ ", \x7b " ++ ", ".intercalate
            ((if def_.MinItems ≠ 0 then ["minItems: " ++ toString def_.MinItems] else []) ++
             (if def_.MaxItems ≠ 0 then ["maxItems: " ++ toString def_.MaxItems] else []) ++
             (if def_.UniqueItems = true then ["uniqueItems: true"] else [])) ++ " \x7d)") ∧
    (def_.MinItems = 1 → def_.MaxItems = 0 → def_.UniqueItems = true →
      generateListExpressionFromDef defs chosenNames (fuel + 1) def_ =
        .ok ("Data.Array(" ++ itemExpr ++ ", \x7b " ++ "minItems: 1, uniqueItems: true" ++ " \x7d)")) ∧
    (def_.MinItems = 0 → def_.MaxItems = 0 → def_.UniqueItems = false →
      generateListExpressionFromDef defs chosenNames (fuel + 1) def_ =
        .ok ("Data.Array(" ++ itemExpr ++ ")")) := by
  have hmain : generateListExpressionFromDef defs chosenNames (fuel + 1) def_ =
      .ok (if def_.MinItems = 0 ∧ def_.MaxItems = 0 ∧ def_.UniqueItems = false then
          "Data.Array(" ++ itemExpr ++ ")"
        else
          "Data.Array(" ++ itemExpr ++ ", \x7b " ++ ", ".intercalate
            ((if def_.MinItems ≠ 0 then ["minItems: " ++ toString def_.MinItems] else []) ++
             (if def_.MaxItems ≠ 0 then ["maxItems: " ++ toString def_.MaxItems] else []) ++
             (if def_.UniqueItems = true then ["uniqueItems: true"] else [])) ++ " \x7d)") := by
    rw [generateListExpressionFromDef]
    simp only [hitems, hexpr, bind, Except.bind, listOpts, strings.Join, fmtInt]
    by_cases h₁ : def_.MinItems = 0 <;> by_cases h₂ : def_.MaxItems = 0 <;>
      cases h₃ : def_.UniqueItems <;> simp [h₁, h₂]
  refine ⟨hmain, ?_, ?_⟩
  · intro h₁ h₂ h₃
    rw [hmain, h₁, h₂, h₃]
    rfl
  · intro h₁ h₂ h₃
    rw [hmain, h₁, h₂, h₃]
    rfl

/-- C7 at `constrainedListDef`: a list of integers with `minItems` 1, `maxItems` 0 and
`uniqueItems` true. -/
theorem generateListExpressionFromDef_options_witness :
    generateListExpressionFromDef [] [] (2 + 1) constrainedListDef =
      .ok ("Data.Array(" ++ "Data.Integer()" ++ ", \x7b " ++ "minItems: 1, uniqueItems: true"
        ++ " \x7d)") :=
  (generateListExpressionFromDef_options [] [] 2 constrainedListDef (leafDef "" "integer")
    "Data.Integer()" rfl rfl).2.1 rfl rfl rfl

/-- C8 fails on the code: two runs that visit the same two definitions, both titled `Foo`,
in different orders give the reference name `a` the identifier `Foo` in one run and `A` in
the other (and `b` the identifiers `B` and `Foo`). -/
theorem chosenNames_depends_on_visiting_order :
    sameTitleSchemaRev.Perm sameTitleSchema ∧
    (∀ fuel, (Generator.chosenNames defaultReservedNames fuel sameTitleSchema).map
      (fun chosen => (mapGet chosen "a", mapGet chosen "b")) = .ok (some "Foo", some "B")) ∧
    (∀ fuel, (Generator.chosenNames defaultReservedNames fuel sameTitleSchemaRev).map
      (fun chosen => (mapGet chosen "a", mapGet chosen "b")) = .ok (some "A", some "Foo")) :=
  ⟨List.Perm.swap _ _ _, fun _ => rfl, fun _ => rfl⟩

/-- C9 fails on the code: on a schema where `A` refers to `B` and `C`, enumerating the
dependency set of `A` as `B, C` gives the emission order `[B, C, A]` and enumerating it as
`C, B` gives `[C, B, A]`. -/
theorem finalOrder_depends_on_map_order :
    (∀ r l, (insertionOrder r l).Perm l) ∧ (∀ r l, (reverseOrder r l).Perm l) ∧
    (∀ j k, TypeScriptGenerator.finalOrder insertionOrder fanOutSchema (j + 3) (k + 2)
      = .ok ["B", "C", "A"]) ∧
    (∀ j k, TypeScriptGenerator.finalOrder reverseOrder fanOutSchema (j + 3) (k + 2)
      = .ok ["C", "B", "A"]) :=
  ⟨fun _ l => List.Perm.refl l, fun _ l => List.reverse_perm l, fun _ _ => rfl, fun _ _ => rfl⟩

/-- C10 fails on the code: a title that starts with a digit is returned as it is, and an
empty reference name with an empty title gives the empty string; neither is a legal
identifier. -/
theorem getUniqueTypeName_illegal_identifier :
    (∀ fuel, getUniqueTypeName defaultReservedNames fuel "1abc" "x" [] = .ok ("1abc", ["1abc"])) ∧
    isLegalIdentifier "1abc" = false ∧
    (∀ fuel, Generator.chosenNames defaultReservedNames fuel digitTitleSchema
      = .ok [("x", "1abc")]) ∧
    (∀ fuel, getUniqueTypeName defaultReservedNames fuel "" "" [] = .ok ("", [""])) ∧
    isLegalIdentifier "" = false ∧
    (∀ fuel, Generator.chosenNames defaultReservedNames fuel emptyNameSchema
      = .ok [("", "")]) :=
  ⟨fun _ => rfl, by decide, fun _ => rfl, fun _ => rfl, by decide, fun _ => rfl⟩

/-! ## Reserved names -/

theorem plutus_prefix_not_default_reserved (b : String) :
    defaultReservedNames ("Plutus" ++ b) = false := by
  have hdata : ("Plutus" ++ b).data = 'P' :: ('l' :: 'u' :: 't' :: 'u' :: 's' :: b.data) := by
    rw [String.data_append]
    rfl
  have hhead : ("Plutus" ++ b).data.head? = some 'P' := by
    rw [hdata]
    rfl
  have h₁ : "Plutus" ++ b ≠ "Data" := by
    intro h
    rw [h] at hhead
    exact absurd hhead (by decide)
  have h₂ : "Plutus" ++ b ≠ "Dummy" := by
    intro h
    rw [h] at hhead
    exact absurd hhead (by decide)
  simp [defaultReservedNames, h₁, h₂]

theorem suffixed_not_default_reserved (ns : String) (k : Nat) :
    defaultReservedNames (ns ++ "_" ++ fmtNat k) = false := by
  have hmem : '_' ∈ (ns ++ "_" ++ fmtNat k).data := by
    simp [String.data_append]
  have h₁ : ns ++ "_" ++ fmtNat k ≠ "Data" := by
    intro h
    rw [h] at hmem
    exact absurd hmem (by decide)
  have h₂ : ns ++ "_" ++ fmtNat k ≠ "Dummy" := by
    intro h
    rw [h] at hmem
    exact absurd hmem (by decide)
  simp [defaultReservedNames, h₁, h₂]

theorem suffixLoop_form (used : List String) (ns : String) (fuel : Nat) :
    ∀ counter name, suffixLoop used ns fuel counter = .ok name →
      ∃ k, name = ns ++ "_" ++ fmtNat k := by
  induction fuel with
  | zero =>
    intro counter name h
    simp [suffixLoop] at h
  | succ fuel ih =>
    intro counter name h
    simp only [suffixLoop] at h
    split at h
    · exact ih _ _ h
    · injection h with h
      exact ⟨counter, h.symm⟩

theorem prefixed_not_default_reserved (b : String) :
    defaultReservedNames
      (if (defaultReservedNames b || b == "Data") = true then "Plutus" ++ b else b) = false := by
  by_cases h : (defaultReservedNames b || b == "Data") = true
  · rw [if_pos h]
    exact plutus_prefix_not_default_reserved b
  · rw [if_neg h]
    cases hb : defaultReservedNames b with
    | false => rfl
    | true => simp [hb] at h

theorem pickName_form (base namespaced : String) (used used' : List String) (fuel : Nat)
    (name : String)
    (h : (if ¬ base ∈ used then (.ok (base, base :: used) : Except Fault (String × List String))
       else if ¬ namespaced ∈ used then .ok (namespaced, namespaced :: used)
       else do
        let unique ← suffixLoop used namespaced fuel 1
        .ok (unique, unique :: used)) = .ok (name, used')) :
    name = base ∨ name = namespaced ∨ ∃ k, name = namespaced ++ "_" ++ fmtNat k := by
  by_cases h1 : base ∈ used
  · by_cases h2 : namespaced ∈ used
    · simp only [h1, h2, not_true_eq_false, if_false] at h
      obtain ⟨unique, hloop, h⟩ := bind_eq_ok _ _ _ h
      injection h with h
      injection h with h _
      obtain ⟨k, hk⟩ := suffixLoop_form _ _ _ _ _ hloop
      exact Or.inr (Or.inr ⟨k, by rw [← h, hk]⟩)
    · simp only [h1, h2, not_true_eq_false, not_false_eq_true, if_false, if_true] at h
      injection h with h
      injection h with h _
      exact Or.inr (Or.inl h.symm)
  · simp only [h1, not_false_eq_true, if_true] at h
    injection h with h
    injection h with h _
    exact Or.inl h.symm

theorem getUniqueTypeName_default_not_reserved (fuel : Nat) (title refName : String)
    (used used' : List String) (name : String)
    (h : getUniqueTypeName defaultReservedNames fuel title refName used = .ok (name, used')) :
    defaultReservedNames name = false := by
  unfold getUniqueTypeName at h
  rcases pickName_form _ _ used used' fuel name h with hn | hn | ⟨k, hn⟩
  · rw [hn]
    by_cases ht : defaultReservedNames (MakeTypeName title) = true
    · simp only [ht, if_true]
      exact prefixed_not_default_reserved _
    · simp only [ht, if_false]
      simpa using ht
  · rw [hn]
    exact prefixed_not_default_reserved _
  · rw [hn]
    exact suffixed_not_default_reserved _ k

/-- C11 fails on the code: with the names `Foo` and `PlutusFoo` reserved, the title `Foo`
under the reference name `Foo` is given the identifier `PlutusFoo`, a reserved name. -/
theorem getUniqueTypeName_returns_reserved :
    (∀ fuel, getUniqueTypeName fooReserved fuel "Foo" "Foo" []
      = .ok ("PlutusFoo", ["PlutusFoo"])) ∧
    fooReserved "PlutusFoo" = true :=
  ⟨fun _ => rfl, by decide⟩

/-- C12 fails on the code: on a schema whose list `A` has items referring to a sentinel of
dataType `map` without keys, `CollectDependenciesMemo` dereferences the nil pointer and
returns for no fuel, while `generateSchemaExpression` returns for the same definition. -/
theorem collectDependencies_nil_keys :
    (∀ k, CollectDependenciesMemo insertionOrder (k + 2) "A" nilMapSchema []
      = .error .nilDereference) ∧
    (∀ fuel, Returns (CollectDependenciesMemo insertionOrder fuel "A" nilMapSchema []) = false) ∧
    (∀ k chosenNames, generateSchemaExpression nilMapSchema chosenNames (k + 4)
      ((mapGet nilMapSchema "A").getD PlutusDefinition.zero)
      = .ok "Data.Array(List_MSchema)") := by
  refine ⟨fun _ => rfl, ?_, fun _ _ => rfl⟩
  intro fuel
  rcases fuel with _ | _ | k
  · rfl
  · rfl
  · rfl

/-- C20 fails on the code: a field referring to a sentinel that wraps a map from `K` to `V`
contributes no dependency, while a sub-definition carrying the same reference contributes
`K` and `V`; so the record `A` of the example has no dependencies at all, although the
expression of its field names the schemas of `K` and `V`. -/
theorem scan_field_skips_map_sentinel :
    (∀ k, scan fieldMapSchema (k + 1) (.inr (refField "m" "#/definitions/List$M")) []
      = .ok []) ∧
    (∀ k, scan fieldMapSchema (k + 2) (.inl (refDef "#/definitions/List$M")) []
      = .ok ["K", "V"]) ∧
    (∀ k, directDeps insertionOrder fieldMapSchema (k + 3) "A" = []) ∧
    (∀ k, generateRefExpressionForField fieldMapSchema [("K", "K"), ("V", "V")] (k + 3)
      (refField "m" "#/definitions/List$M") = .ok "Data.Map(KSchema, VSchema)") :=
  ⟨fun _ => rfl, fun _ => rfl, fun _ => rfl, fun _ => rfl⟩

/-! ## Loops over alternatives and fields -/

theorem mapM_eq_map {α β : Type} (f : α → Except Fault β) (g : α → β) (l : List α)
    (h : ∀ x ∈ l, f x = .ok (g x)) : l.mapM f = .ok (l.map g) := by
  induction l with
  | nil => rfl
  | cons a rest ih =>
    have ha := h a (List.mem_cons_self _ _)
    have hrest := ih (fun x hx => h x (List.mem_cons_of_mem _ hx))
    simp only [List.mapM_cons, ha, hrest, bind, Except.bind, pure, Except.pure, List.map_cons]

theorem generateConstructorInEnum_arm (defs : Definitions) (chosenNames : ChosenNames)
    (fuel : Nat) (E : PlutusField → String) (alt : PlutusDefinition)
    (hE : ∀ f ∈ alt.Fields, generateRefExpressionForField defs chosenNames fuel f = .ok (E f)) :
    generateConstructorInEnum defs chosenNames (fuel + 1) alt = .ok (taggedUnionArm E alt) := by
  rw [generateConstructorInEnum]
  unfold taggedUnionArm
  by_cases h : alt.Fields.length = 0
  · simp only [h, if_true]
  · simp only [h, if_false, mapM_eq_map _ E alt.Fields hE, bind, Except.bind, strings.Join]

theorem generateEnumExpression_arms (defs : Definitions) (chosenNames : ChosenNames)
    (fuel : Nat) (E : PlutusField → String) (alts : List PlutusDefinition)
    (hE : ∀ alt ∈ alts, ∀ f ∈ alt.Fields,
      generateRefExpressionForField defs chosenNames fuel f = .ok (E f)) :
    generateEnumExpression defs chosenNames (fuel + 2) alts =
      .ok ("Data.Enum([" ++ strings.Join (alts.map (taggedUnionArm E)) ", " ++ "])") := by
  rw [generateEnumExpression]
  simp only [mapM_eq_map _ (taggedUnionArm E) alts
    (fun alt h => generateConstructorInEnum_arm defs chosenNames fuel E alt (hE alt h)),
    bind, Except.bind]

/-- C13, as the claim states it, fails: a definition with the wrapped-redeemer description
and two alternatives, the first with a field, is rendered as the `Dummy`/`Wrapped` union
and not as the tagged union over its two alternatives. -/
theorem taggedUnion_wrapped_counterexample :
    1 < wrappedTwoAltDef.AnyOf.length ∧
    (∀ k, generateSchemaExpression [] [("T", "T")] (k + 2) wrappedTwoAltDef =
      .ok "Data.Enum([\n  Data.Object(\x7b Dummy: Data.Tuple([]) \x7d),\n  Data.Object(\x7b Wrapped: Data.Tuple([TSchema]) \x7d)\n])") ∧
    ¬ ∃ fuel, generateSchemaExpression [] [("T", "T")] fuel wrappedTwoAltDef =
      .ok "Data.Enum([Data.Object(\x7b X: Data.Tuple([TSchema]) \x7d), Data.Literal(\"Y\")])" := by
  have hv : ∀ k, generateSchemaExpression [] [("T", "T")] (k + 2) wrappedTwoAltDef =
      .ok "Data.Enum([\n  Data.Object(\x7b Dummy: Data.Tuple([]) \x7d),\n  Data.Object(\x7b Wrapped: Data.Tuple([TSchema]) \x7d)\n])" :=
    fun _ => rfl
  refine ⟨by decide, hv, ?_⟩
  rintro ⟨fuel, h⟩
  rcases fuel with _ | _ | fuel
  · exact absurd h (by decide)
  · exact absurd h (by decide)
  · rw [hv fuel] at h
    exact absurd h (by decide)

/-- C13 as amended: for every definition with more than one alternative whose description
is not the wrapped-redeemer literal, or whose first alternative has no fields,
`generateSchemaExpression` returns `Data.Enum([` + the arms joined by `, ` + `])` with one
arm per alternative in the alternatives' order: `Data.Literal("<title>")` (`Unknown` for an
empty title) for an alternative without fields, and
`Data.Object({ <title>: Data.Tuple([<field expressions joined by ", ">]) })` otherwise. -/
theorem generateSchemaExpression_taggedUnion (defs : Definitions) (chosenNames : ChosenNames)
    (fuel : Nat) (def_ : PlutusDefinition) (E : PlutusField → String)
    (hmany : 1 < def_.AnyOf.length)
    (hnot : def_.Description ≠ wrappedRedeemerDescription ∨
      ∀ alt, def_.AnyOf.head? = some alt → alt.Fields = [])
    (hE : ∀ alt ∈ def_.AnyOf, ∀ f ∈ alt.Fields,
      generateRefExpressionForField defs chosenNames fuel f = .ok (E f)) :
    generateSchemaExpression defs chosenNames (fuel + 3) def_ =
      .ok ("Data.Enum([" ++ strings.Join (def_.AnyOf.map (taggedUnionArm E)) ", " ++ "])") := by
  have henum := generateEnumExpression_arms defs chosenNames fuel E def_.AnyOf hE
  cases hany : def_.AnyOf with
  | nil => rw [hany] at hmany; simp at hmany
  | cons a₁ rest₁ =>
    cases rest₁ with
    | nil => rw [hany] at hmany; simp at hmany
    | cons a₂ rest =>
      rw [hany] at henum
      rw [generateSchemaExpression]
      simp only [hany, henum]
      by_cases hd : def_.Description = wrappedRedeemerDescription
      · rcases hnot with hnot | hnot
        · exact absurd hd hnot
        · have hf : a₁.Fields = [] := hnot a₁ (by rw [hany]; rfl)
          simp only [hd, hf, if_true]
      · simp only [hd, if_false]

/-- C13 as amended, at `fooBarDef`, whose field has neither a reference nor items. -/
theorem generateSchemaExpression_taggedUnion_witness :
    generateSchemaExpression [] [] (1 + 3) fooBarDef =
      .ok "Data.Enum([Data.Literal(\"Foo\"), Data.Object(\x7b Bar: Data.Tuple([Data.Any()]) \x7d)])" :=
  generateSchemaExpression_taggedUnion [] [] 1 fooBarDef (fun _ => "Data.Any()") (by decide)
    (Or.inl (by decide))
    (by
      intro alt halt f hf
      have h₁ : alt = altDef "Foo" [] ∨ alt = altDef "Bar" [.mk "" "integer" "" none] := by
        simpa [fooBarDef, PlutusDefinition.AnyOf] using halt
      rcases h₁ with h₁ | h₁
      · subst h₁
        simp [altDef, PlutusDefinition.Fields] at hf
      · subst h₁
        have h₂ : f = .mk "" "integer" "" none := by
          simpa [altDef, PlutusDefinition.Fields] using hf
        subst h₂
        rfl)

/-- C14, as the claim states it, fails twice: an alternative without fields whose title is
the definition's title is rendered with the constructor option, and when both titles are
empty the alternative is not flattened but keyed `Unknown`. -/
theorem flatten_counterexample :
    (∀ k, generateSchemaExpression [] [] (k + 2) (recordDef "T" "T" []) =
      .ok "Data.Object(\x7b\x7d, \x7b hasConstr: true \x7d)") ∧
    (¬ ∃ fuel, generateSchemaExpression [] [] fuel (recordDef "T" "T" []) =
      .ok ("Data.Object(\x7b " ++ strings.Join [] ", " ++ " \x7d)")) ∧
    (∀ k, generateSchemaExpression [] [] (k + 4) (recordDef "" "" [.mk "x" "" "" none]) =
      .ok "Data.Object(\x7b Unknown: Data.Tuple([Data.Any()]) \x7d)") ∧
    (¬ ∃ fuel, generateSchemaExpression [] [] fuel (recordDef "" "" [.mk "x" "" "" none]) =
      .ok "Data.Object(\x7b x: Data.Any() \x7d)") := by
  have h₁ : ∀ k, generateSchemaExpression [] [] (k + 2) (recordDef "T" "T" []) =
      .ok "Data.Object(\x7b\x7d, \x7b hasConstr: true \x7d)" := fun _ => rfl
  have h₂ : ∀ k, generateSchemaExpression [] [] (k + 4) (recordDef "" "" [.mk "x" "" "" none]) =
      .ok "Data.Object(\x7b Unknown: Data.Tuple([Data.Any()]) \x7d)" := fun _ => rfl
  refine ⟨h₁, ?_, h₂, ?_⟩
  · rintro ⟨fuel, h⟩
    rcases fuel with _ | _ | fuel
    · exact absurd h (by decide)
    · exact absurd h (by decide)
    · rw [h₁ fuel] at h
      exact absurd h (by decide)
  · rintro ⟨fuel, h⟩
    rcases fuel with _ | _ | _ | _ | fuel
    · exact absurd h (by decide)
    · exact absurd h (by decide)
    · exact absurd h (by decide)
    · exact absurd h (by decide)
    · rw [h₂ fuel] at h
      exact absurd h (by decide)

/-- C14 as amended: for every definition with a non-empty title whose description is not
the wrapped-redeemer literal and which has exactly one alternative, with at least one
field, whose title equals the definition's title, `generateSchemaExpression` returns the
plain object `Data.Object({ ` + the entries `<field title>: <field expression>` in field
order joined by `, ` + ` })`. -/
theorem generateSchemaExpression_flatten (defs : Definitions) (chosenNames : ChosenNames)
    (fuel : Nat) (def_ cons : PlutusDefinition) (E : PlutusField → String)
    (hdesc : def_.Description ≠ wrappedRedeemerDescription)
    (hany : def_.AnyOf = [cons]) (htitle : cons.Title = def_.Title)
    (hnonempty : def_.Title ≠ "") (hfields : cons.Fields ≠ [])
    (hE : ∀ f ∈ cons.Fields, generateRefExpressionForField defs chosenNames fuel f = .ok (E f)) :
    generateSchemaExpression defs chosenNames (fuel + 2) def_ =
      .ok ("Data.Object(\x7b " ++
        strings.Join (cons.Fields.map (fun f => f.Title ++ ": " ++ E f)) ", " ++ " \x7d)") := by
  have hlen : ¬ cons.Fields.length = 0 := fun h => hfields (List.length_eq_zero.1 h)
  have hmap : cons.Fields.mapM (fun f => do
        let e ← generateRefExpressionForField defs chosenNames fuel f
        Except.ok (f.Title ++ ": " ++ e))
      = .ok (cons.Fields.map (fun f => f.Title ++ ": " ++ E f)) := by
    apply mapM_eq_map
    intro f hf
    simp only [hE f hf, bind, Except.bind]
  rw [generateSchemaExpression]
  simp only [hdesc, hany, if_false]
  rw [generateSingleConstructor]
  simp only [hlen, if_false, htitle, hnonempty, ne_eq, not_false_eq_true, and_self, if_true,
    hmap]
  simp only [bind, Except.bind]

/-- C14 as amended, at the record `B` of the end-to-end example. -/
theorem generateSchemaExpression_flatten_witness :
    generateSchemaExpression [] [("A", "A")] (1 + 2)
      (recordDef "B" "B" [refField "x" "#/definitions/A"]) =
      .ok "Data.Object(\x7b x: ASchema \x7d)" :=
  generateSchemaExpression_flatten [] [("A", "A")] 1
    (recordDef "B" "B" [refField "x" "#/definitions/A"])
    (altDef "B" [refField "x" "#/definitions/A"]) (fun _ => "ASchema")
    (by decide) rfl rfl (by decide) (by simp [altDef, PlutusDefinition.Fields])
    (by
      intro f hf
      have h : f = refField "x" "#/definitions/A" := by
        simpa [altDef, PlutusDefinition.Fields] using hf
      subst h
      rfl)

/-- C15, as the claim states it, fails: an alternative without fields whose title differs
from the definition's title is rendered as `Data.Object({}, { hasConstr: true })`, not as
an object keyed by the constructor title around an empty tuple. -/
theorem constructorObject_counterexample :
    (∀ k, generateSchemaExpression [] [] (k + 2) (recordDef "P" "C" []) =
      .ok "Data.Object(\x7b\x7d, \x7b hasConstr: true \x7d)") ∧
    ¬ ∃ fuel, generateSchemaExpression [] [] fuel (recordDef "P" "C" []) =
      .ok ("Data.Object(\x7b " ++ "C" ++ ": Data.Tuple([" ++ strings.Join [] ", " ++ "]) \x7d)") := by
  have h₁ : ∀ k, generateSchemaExpression [] [] (k + 2) (recordDef "P" "C" []) =
      .ok "Data.Object(\x7b\x7d, \x7b hasConstr: true \x7d)" := fun _ => rfl
  refine ⟨h₁, ?_⟩
  rintro ⟨fuel, h⟩
  rcases fuel with _ | _ | fuel
  · exact absurd h (by decide)
  · exact absurd h (by decide)
  · rw [h₁ fuel] at h
    exact absurd h (by decide)

theorem generateConstructorAsObject_fields (defs : Definitions) (chosenNames : ChosenNames)
    (fuel : Nat) (cons : PlutusDefinition) (E : PlutusField → String)
    (hfields : cons.Fields ≠ [])
    (hE : ∀ f ∈ cons.Fields, generateRefExpressionForField defs chosenNames fuel f = .ok (E f)) :
    generateConstructorAsObject defs chosenNames (fuel + 1) cons =
      .ok (if cons.Fields.all (fun f => decide (f.Title ≠ "")) = true then
          "Data.Object(\x7b " ++ (if cons.Title = "" then "Unknown" else cons.Title) ++
            ": Data.Tuple([" ++ strings.Join (cons.Fields.map E) ", " ++ "]) \x7d)"
        else
          "Data.Tuple([" ++ strings.Join (cons.Fields.map E) ", " ++
            "], \x7b hasConstr: true \x7d)") := by
  have hlen : ¬ cons.Fields.length = 0 := fun h => hfields (List.length_eq_zero.1 h)
  rw [generateConstructorAsObject]
  simp only [hlen, if_false, mapM_eq_map _ E cons.Fields hE, bind, Except.bind]
  split <;> rfl

/-- C15 as amended: for every definition whose description is not the wrapped-redeemer
literal and which has exactly one alternative, with at least one field, whose title
differs from the definition's title, if every field of the alternative has a title then
`generateSchemaExpression` returns
`Data.Object({ <constructor title, or Unknown when empty>: Data.Tuple([<the field
expressions in field order, joined by ", ">]) })`. -/
theorem generateSchemaExpression_constructorObject (defs : Definitions)
    (chosenNames : ChosenNames) (fuel : Nat) (def_ cons : PlutusDefinition)
    (E : PlutusField → String)
    (hdesc : def_.Description ≠ wrappedRedeemerDescription)
    (hany : def_.AnyOf = [cons]) (hdiff : cons.Title ≠ def_.Title)
    (hfields : cons.Fields ≠ []) (htitles : ∀ f ∈ cons.Fields, f.Title ≠ "")
    (hE : ∀ f ∈ cons.Fields, generateRefExpressionForField defs chosenNames fuel f = .ok (E f)) :
    generateSchemaExpression defs chosenNames (fuel + 3) def_ =
      .ok ("Data.Object(\x7b " ++ (if cons.Title = "" then "Unknown" else cons.Title) ++
        ": Data.Tuple([" ++ strings.Join (cons.Fields.map E) ", " ++ "]) \x7d)") := by
  have hlen : ¬ cons.Fields.length = 0 := fun h => hfields (List.length_eq_zero.1 h)
  have hall : cons.Fields.all (fun f => decide (f.Title ≠ "")) = true := by
    rw [List.all_eq_true]
    intro f hf
    exact decide_eq_true (htitles f hf)
  rw [generateSchemaExpression]
  simp only [hdesc, hany, if_false]
  rw [generateSingleConstructor]
  simp only [hlen, if_false, hdiff, and_false,
    generateConstructorAsObject_fields defs chosenNames fuel cons E hfields hE, hall, if_true]

/-- C15 as amended, at a record `P` whose constructor `C` has one titled field. -/
theorem generateSchemaExpression_constructorObject_witness :
    generateSchemaExpression [] [("A", "A")] (1 + 3)
      (recordDef "P" "C" [refField "x" "#/definitions/A"]) =
      .ok "Data.Object(\x7b C: Data.Tuple([ASchema]) \x7d)" :=
  generateSchemaExpression_constructorObject [] [("A", "A")] 1
    (recordDef "P" "C" [refField "x" "#/definitions/A"])
    (altDef "C" [refField "x" "#/definitions/A"]) (fun _ => "ASchema")
    (by decide) rfl (by decide) (by simp [altDef, PlutusDefinition.Fields])
    (by
      intro f hf
      have h : f = refField "x" "#/definitions/A" := by
        simpa [altDef, PlutusDefinition.Fields] using hf
      subst h
      decide)
    (by
      intro f hf
      have h : f = refField "x" "#/definitions/A" := by
        simpa [altDef, PlutusDefinition.Fields] using hf
      subst h
      rfl)

/-- C16: for every definition whose description is not the wrapped-redeemer literal and
which has exactly one alternative whose title differs from the definition's title, if at
least one field of the alternative has an empty title then `generateSchemaExpression`
returns the constructor-tagged tuple
`Data.Tuple([<the field expressions in field order, joined by ", ">], { hasConstr: true })`,
built from the field expressions alone. -/
theorem generateSchemaExpression_rawTuple (defs : Definitions)
    (chosenNames : ChosenNames) (fuel : Nat) (def_ cons : PlutusDefinition)
    (E : PlutusField → String)
    (hdesc : def_.Description ≠ wrappedRedeemerDescription)
    (hany : def_.AnyOf = [cons]) (hdiff : cons.Title ≠ def_.Title)
    (huntitled : ∃ f ∈ cons.Fields, f.Title = "")
    (hE : ∀ f ∈ cons.Fields, generateRefExpressionForField defs chosenNames fuel f = .ok (E f)) :
    generateSchemaExpression defs chosenNames (fuel + 3) def_ =
      .ok ("Data.Tuple([" ++ strings.Join (cons.Fields.map E) ", " ++
        "], \x7b hasConstr: true \x7d)") := by
  obtain ⟨f₀, hf₀, ht₀⟩ := huntitled
  have hfields : cons.Fields ≠ [] := fun h => by rw [h] at hf₀; simp at hf₀
  have hlen : ¬ cons.Fields.length = 0 := fun h => hfields (List.length_eq_zero.1 h)
  have hall : ¬ cons.Fields.all (fun f => decide (f.Title ≠ "")) = true := by
    rw [List.all_eq_true]
    intro h
    have := h f₀ hf₀
    simp [ht₀] at this
  rw [generateSchemaExpression]
  simp only [hdesc, hany, if_false]
  rw [generateSingleConstructor]
  simp only [hlen, if_false, hdiff, and_false,
    generateConstructorAsObject_fields defs chosenNames fuel cons E hfields hE, hall,
    Bool.false_eq_true]

/-- C16 at a record `P` whose constructor `C` has a titled and an untitled field. -/
theorem generateSchemaExpression_rawTuple_witness :
    generateSchemaExpression [] [("A", "A")] (1 + 3)
      (recordDef "P" "C" [refField "x" "#/definitions/A", refField "" "#/definitions/A"]) =
      .ok "Data.Tuple([ASchema, ASchema], \x7b hasConstr: true \x7d)" :=
  generateSchemaExpression_rawTuple [] [("A", "A")] 1
    (recordDef "P" "C" [refField "x" "#/definitions/A", refField "" "#/definitions/A"])
    (altDef "C" [refField "x" "#/definitions/A", refField "" "#/definitions/A"])
    (fun _ => "ASchema") (by decide) rfl (by decide)
    ⟨refField "" "#/definitions/A", by simp [altDef, PlutusDefinition.Fields], rfl⟩
    (by
      intro f hf
      have h : f = refField "x" "#/definitions/A" ∨ f = refField "" "#/definitions/A" := by
        simpa [altDef, PlutusDefinition.Fields] using hf
      rcases h with h | h
      · subst h
        rfl
      · subst h
        rfl)

/-! ## References -/

theorem generateRefExpressionForDef_named (defs : Definitions) (chosenNames : ChosenNames)
    (fuel : Nat) (def_ : PlutusDefinition) (name : String) (href : def_.Ref ≠ "")
    (hsent : strings.HasPrefix (normalizeRef def_.Ref) "List$" = false)
    (hname : mapGet chosenNames (normalizeRef def_.Ref) = some name) :
    generateRefExpressionForDef defs chosenNames (fuel + 1) def_ = .ok (name ++ "Schema") := by
  rw [generateRefExpressionForDef]
  simp only [href, hsent, hname, ne_eq, not_false_eq_true, if_true, Bool.false_eq_true, if_false]

/-- C17, as the claim states it, fails: the definition `List$X` is known, has the chosen
name `Foo` and wraps neither a list nor a map, yet a reference to it is rendered as
`List_XSchema`, built from the raw reference, and not as `FooSchema`. -/
theorem namedReference_sentinel_counterexample :
    (∀ fuel, Generator.chosenNames defaultReservedNames fuel titledSentinelSchema
      = .ok [("List$X", "Foo")]) ∧
    (∀ k, generateRefExpressionForField titledSentinelSchema [("List$X", "Foo")] (k + 2)
      (refField "f" "#/definitions/List$X") = .ok "List_XSchema") ∧
    (∀ k, generateRefExpressionForDef titledSentinelSchema [("List$X", "Foo")] (k + 2)
      (refDef "#/definitions/List$X") = .ok "List_XSchema") ∧
    (¬ ∃ fuel, generateRefExpressionForField titledSentinelSchema [("List$X", "Foo")] fuel
      (refField "f" "#/definitions/List$X") = .ok ("Foo" ++ "Schema")) ∧
    (¬ ∃ fuel, generateRefExpressionForDef titledSentinelSchema [("List$X", "Foo")] fuel
      (refDef "#/definitions/List$X") = .ok ("Foo" ++ "Schema")) := by
  have h₁ : ∀ k, generateRefExpressionForField titledSentinelSchema [("List$X", "Foo")] (k + 2)
      (refField "f" "#/definitions/List$X") = .ok "List_XSchema" := fun _ => rfl
  have h₂ : ∀ k, generateRefExpressionForDef titledSentinelSchema [("List$X", "Foo")] (k + 2)
      (refDef "#/definitions/List$X") = .ok "List_XSchema" := fun _ => rfl
  refine ⟨fun _ => rfl, h₁, h₂, ?_, ?_⟩
  · rintro ⟨fuel, h⟩
    rcases fuel with _ | _ | fuel
    · exact absurd h (by decide)
    · exact absurd h (by decide)
    · rw [h₁ fuel] at h
      exact absurd h (by decide)
  · rintro ⟨fuel, h⟩
    rcases fuel with _ | _ | fuel
    · exact absurd h (by decide)
    · exact absurd h (by decide)
    · rw [h₂ fuel] at h
      exact absurd h (by decide)

/-- C17 as amended: for every field or sub-definition carrying a reference whose canonical
target name does not start with the sentinel prefix `List$` and has a chosen name (as
every definition of the schema has), `generateRefExpressionForField` and
`generateRefExpressionForDef` return the chosen name followed by `Schema`. -/
theorem generateRefExpression_named (defs : Definitions) (chosenNames : ChosenNames)
    (fuel : Nat) (ref name : String) (href : ref ≠ "")
    (hsent : strings.HasPrefix (normalizeRef ref) "List$" = false)
    (hname : mapGet chosenNames (normalizeRef ref) = some name) :
    (∀ field : PlutusField, field.Ref = ref →
      generateRefExpressionForField defs chosenNames (fuel + 1) field
        = .ok (name ++ "Schema")) ∧
    (∀ def_ : PlutusDefinition, def_.Ref = ref →
      generateRefExpressionForDef defs chosenNames (fuel + 1) def_
        = .ok (name ++ "Schema")) := by
  constructor
  · intro field hf
    subst hf
    exact generateRefExpressionForField_named defs chosenNames fuel field name href hsent hname
  · intro def_ hd
    subst hd
    exact generateRefExpressionForDef_named defs chosenNames fuel def_ name href hsent hname

/-- C17 as amended, at a reference to `foo/bar` written with the escaped slash. -/
theorem generateRefExpression_named_witness :
    (∀ field : PlutusField, field.Ref = "#/definitions/foo~1bar" →
      generateRefExpressionForField [] [("foo/bar", "Bar")] (0 + 1) field
        = .ok ("Bar" ++ "Schema")) ∧
    (∀ def_ : PlutusDefinition, def_.Ref = "#/definitions/foo~1bar" →
      generateRefExpressionForDef [] [("foo/bar", "Bar")] (0 + 1) def_
        = .ok ("Bar" ++ "Schema")) :=
  generateRefExpression_named [] [("foo/bar", "Bar")] 0 "#/definitions/foo~1bar" "Bar"
    (by decide) (by decide) (by decide)

/-! ## The chosen names of sentinels are not read -/

theorem sameExpressions (defs : Definitions) (c c' : ChosenNames)
    (h : AgreeOffSentinels c c') : ∀ fuel, SameExpressions defs c c' fuel := by
  intro fuel
  induction fuel with
  | zero =>
    refine ⟨?_, ?_, ?_, ?_, ?_, ?_, ?_, ?_, ?_, ?_, ?_⟩ <;> rfl
  | succ fuel ih =>
    obtain ⟨e₁, e₂, e₃, e₄, e₅, e₆, e₇, e₈, e₉, e₁₀, e₁₁⟩ := ih
    refine ⟨?_, ?_, ?_, ?_, ?_, ?_, ?_, ?_, ?_, ?_, ?_⟩
    · funext d
      simp only [generateSchemaExpression, e₂, e₃, e₆, e₇, e₁₀]
    · funext alts
      simp only [generateEnumExpression, e₄]
    · funext cons parentTitle
      simp only [generateSingleConstructor, e₅, e₁₀]
    · funext cons
      simp only [generateConstructorInEnum, e₁₀]
    · funext cons
      simp only [generateConstructorAsObject, e₁₀]
    · funext d
      simp only [generateMapExpression, e₉]
    · funext d
      simp only [generateListExpressionFromDef, e₉]
    · funext d
      simp only [generateListExpression, e₇]
    · funext d
      simp only [generateRefExpressionForDef, e₁, e₁₁]
      by_cases hp : strings.HasPrefix (normalizeRef d.Ref) "List$" = true
      · simp only [hp, if_true]
      · have hp' : strings.HasPrefix (normalizeRef d.Ref) "List$" = false := by
          simpa using hp
        simp only [hp', Bool.false_eq_true, if_false, h _ hp']
    · funext f
      simp only [generateRefExpressionForField, e₈, e₁₁]
      by_cases hp : strings.HasPrefix (normalizeRef f.Ref) "List$" = true
      · simp only [hp, if_true]
      · have hp' : strings.HasPrefix (normalizeRef f.Ref) "List$" = false := by
          simpa using hp
        simp only [hp', Bool.false_eq_true, if_false, h _ hp']
    · funext n
      simp only [resolveListReference, e₉]

theorem resolveListReference_map (defs : Definitions) (chosenNames : ChosenNames)
    (fuel : Nat) (n : String) (listDef keys values : PlutusDefinition) (ke ve : String)
    (hdef : mapGet defs n = some listDef) (hmap : listDef.DataType = "map")
    (hkeys : listDef.Keys = some keys) (hvalues : listDef.Values = some values)
    (hke : generateRefExpressionForDef defs chosenNames fuel keys = .ok ke)
    (hve : generateRefExpressionForDef defs chosenNames fuel values = .ok ve) :
    resolveListReference defs chosenNames (fuel + 1) n
      = .ok (some ("Data.Map(" ++ ke ++ ", " ++ ve ++ ")")) := by
  rw [resolveListReference]
  simp only [hdef, hmap, hkeys, hvalues, hke, hve, if_true, bind, Except.bind]

theorem resolveListReference_list (defs : Definitions) (chosenNames : ChosenNames)
    (fuel : Nat) (n : String) (listDef items : PlutusDefinition) (ie : String)
    (hdef : mapGet defs n = some listDef)
    (hnotmap : listDef.DataType ≠ "map" ∨ listDef.Keys = none ∨ listDef.Values = none)
    (hitems : listDef.Items = some items)
    (hie : generateRefExpressionForDef defs chosenNames fuel items = .ok ie) :
    resolveListReference defs chosenNames (fuel + 1) n
      = .ok (some ("Data.Array(" ++ ie ++ ")")) := by
  rw [resolveListReference]
  simp only [hdef, hitems, hie, bind, Except.bind]
  by_cases hm : listDef.DataType = "map"
  · rcases hnotmap with h | h | h
    · exact absurd hm h
    · simp only [hm, if_true, h]
    · simp only [hm, if_true, h]
      cases listDef.Keys <;> rfl
  · simp only [hm, if_false]

theorem generateRefExpression_resolved (defs : Definitions) (chosenNames : ChosenNames)
    (fuel : Nat) (ref expr : String) (href : ref ≠ "")
    (hsent : strings.HasPrefix (normalizeRef ref) "List$" = true)
    (hres : resolveListReference defs chosenNames (fuel + 1) (normalizeRef ref)
      = .ok (some expr)) :
    (∀ field : PlutusField, field.Ref = ref →
      generateRefExpressionForField defs chosenNames (fuel + 2) field = .ok expr) ∧
    (∀ def_ : PlutusDefinition, def_.Ref = ref →
      generateRefExpressionForDef defs chosenNames (fuel + 2) def_ = .ok expr) := by
  constructor
  · intro field hf
    subst hf
    rw [generateRefExpressionForField]
    simp only [href, hsent, hres, ne_eq, not_false_eq_true, if_true, bind, Except.bind]
  · intro def_ hd
    subst hd
    rw [generateRefExpressionForDef]
    simp only [href, hsent, hres, ne_eq, not_false_eq_true, if_true, bind, Except.bind]

/-- C18: for every field or sub-definition carrying a reference whose canonical target name
starts with `List$` and is a definition of the schema: when that definition has dataType
`map` with keys and values the expression is `Data.Map(<keys expression>, <values
expression>)`; otherwise, when it has items, the expression is
`Data.Array(<items expression>)`; and the expression generators never look up the chosen
name of a name starting with `List$`, so the result is the same under every chosen-names
mapping that differs only at such names. -/
theorem generateRefExpression_sentinel (defs : Definitions) (chosenNames : ChosenNames)
    (fuel : Nat) (ref : String) (listDef : PlutusDefinition) (href : ref ≠ "")
    (hsent : strings.HasPrefix (normalizeRef ref) "List$" = true)
    (hdef : mapGet defs (normalizeRef ref) = some listDef) :
    (∀ keys values ke ve, listDef.DataType = "map" → listDef.Keys = some keys →
      listDef.Values = some values →
      generateRefExpressionForDef defs chosenNames fuel keys = .ok ke →
      generateRefExpressionForDef defs chosenNames fuel values = .ok ve →
      (∀ field : PlutusField, field.Ref = ref →
        generateRefExpressionForField defs chosenNames (fuel + 2) field
          = .ok ("Data.Map(" ++ ke ++ ", " ++ ve ++ ")")) ∧
      (∀ def_ : PlutusDefinition, def_.Ref = ref →
        generateRefExpressionForDef defs chosenNames (fuel + 2) def_
          = .ok ("Data.Map(" ++ ke ++ ", " ++ ve ++ ")"))) ∧
    (∀ items ie,
      (listDef.DataType ≠ "map" ∨ listDef.Keys = none ∨ listDef.Values = none) →
      listDef.Items = some items →
      generateRefExpressionForDef defs chosenNames fuel items = .ok ie →
      (∀ field : PlutusField, field.Ref = ref →
        generateRefExpressionForField defs chosenNames (fuel + 2) field
          = .ok ("Data.Array(" ++ ie ++ ")")) ∧
      (∀ def_ : PlutusDefinition, def_.Ref = ref →
        generateRefExpressionForDef defs chosenNames (fuel + 2) def_
          = .ok ("Data.Array(" ++ ie ++ ")"))) ∧
    (∀ chosenNames', AgreeOffSentinels chosenNames chosenNames' →
      (∀ field : PlutusField, field.Ref = ref →
        generateRefExpressionForField defs chosenNames' (fuel + 2) field
          = generateRefExpressionForField defs chosenNames (fuel + 2) field) ∧
      (∀ def_ : PlutusDefinition, def_.Ref = ref →
        generateRefExpressionForDef defs chosenNames' (fuel + 2) def_
          = generateRefExpressionForDef defs chosenNames (fuel + 2) def_)) := by
  refine ⟨?_, ?_, ?_⟩
  · intro keys values ke ve hmap hkeys hvalues hke hve
    exact generateRefExpression_resolved defs chosenNames fuel ref _ href hsent
      (resolveListReference_map defs chosenNames fuel _ listDef keys values ke ve hdef hmap
        hkeys hvalues hke hve)
  · intro items ie hnotmap hitems hie
    exact generateRefExpression_resolved defs chosenNames fuel ref _ href hsent
      (resolveListReference_list defs chosenNames fuel _ listDef items ie hdef hnotmap
        hitems hie)
  · intro chosenNames' hagree
    obtain ⟨_, _, _, _, _, _, _, _, e₉, e₁₀, _⟩ :=
      sameExpressions defs chosenNames chosenNames' hagree (fuel + 2)
    exact ⟨fun field _ => (congrFun e₁₀ field).symm, fun def_ _ => (congrFun e₉ def_).symm⟩

/-- C18 at the field `m` of `sentinelSchema`, which refers to the sentinel `List$M`, a map
from `K` to the sentinel list `List$L` of `K`; the sentinels have the chosen names `Lm`
and `Ll`, which occur nowhere in the expression. -/
theorem generateRefExpression_sentinel_witness :
    generateRefExpressionForField sentinelSchema
        [("K", "K"), ("List$L", "Ll"), ("List$M", "Lm"), ("R", "R")] (3 + 2)
        (refField "m" "#/definitions/List$M")
      = .ok ("Data.Map(" ++ "KSchema" ++ ", " ++ "Data.Array(KSchema)" ++ ")") :=
  ((generateRefExpression_sentinel sentinelSchema
      [("K", "K"), ("List$L", "Ll"), ("List$M", "Lm"), ("R", "R")] 3
      "#/definitions/List$M" (mapOf (refDef "#/definitions/K") (refDef "#/definitions/List$L"))
      (by decide) (by decide) rfl).1
    (refDef "#/definitions/K") (refDef "#/definitions/List$L") "KSchema" "Data.Array(KSchema)"
    rfl rfl rfl rfl rfl).1 (refField "m" "#/definitions/List$M") rfl

/-! ## What `scan` keeps true of the dependency set -/

theorem scanOpt_keeps {P : List String → Prop}
    {self : ScanArg → List String → Except Fault (List String)} (hself : ScanKeeps P self)
    (p : Option PlutusDefinition) (s s' : List String) (h : scanOpt self p s = .ok s')
    (hs : P s) : P s' := by
  cases p with
  | none =>
    simp only [scanOpt] at h
    injection h with h
    exact h ▸ hs
  | some d => exact hself _ _ _ h hs

theorem scanDefRef_keeps {defs : Definitions} {P : List String → Prop}
    (hP : KeptByRecording defs P)
    {self : ScanArg → List String → Except Fault (List String)} (hself : ScanKeeps P self)
    (ref : String) (s s' : List String) (h : scanDefRef defs self ref s = .ok s')
    (hs : P s) : P s' := by
  unfold scanDefRef at h
  split at h
  · simp only at h
    split at h
    · split at h
      · split at h
        · obtain ⟨keys, _, h⟩ := bind_eq_ok _ _ _ h
          obtain ⟨s₁, h₁, h⟩ := bind_eq_ok _ _ _ h
          obtain ⟨values, _, h⟩ := bind_eq_ok _ _ _ h
          exact hself _ _ _ h (hself _ _ _ h₁ hs)
        · split at h
          · exact hself _ _ _ h hs
          · injection h with h
            exact h ▸ hs
      · injection h with h
        exact h ▸ hs
    · rename_i hpre
      split at h
      · rename_i hsome
        injection h with h
        exact h ▸ hP s _ hs (by simpa using hpre) hsome
      · injection h with h
        exact h ▸ hs
  · injection h with h
    exact h ▸ hs

theorem scanFieldRef_keeps {defs : Definitions} {P : List String → Prop}
    (hP : KeptByRecording defs P)
    {self : ScanArg → List String → Except Fault (List String)} (hself : ScanKeeps P self)
    (ref : String) (s s' : List String) (h : scanFieldRef defs self ref s = .ok s')
    (hs : P s) : P s' := by
  unfold scanFieldRef at h
  split at h
  · simp only at h
    split at h
    · split at h
      · split at h
        · exact hself _ _ _ h hs
        · injection h with h
          exact h ▸ hs
      · injection h with h
        exact h ▸ hs
    · rename_i hpre
      split at h
      · rename_i hsome
        injection h with h
        exact h ▸ hP s _ hs (by simpa using hpre) hsome
      · injection h with h
        exact h ▸ hs
  · injection h with h
    exact h ▸ hs

theorem foldlM_keeps {α : Type} (P : List String → Prop)
    (f : List String → α → Except Fault (List String)) (l : List α)
    (hf : ∀ a s s', f s a = .ok s' → P s → P s') :
    ∀ s s', l.foldlM f s = .ok s' → P s → P s' := by
  induction l with
  | nil =>
    intro s s' h hs
    simp only [List.foldlM_nil, pure, Except.pure] at h
    injection h with h
    exact h ▸ hs
  | cons a rest ih =>
    intro s s' h hs
    simp only [List.foldlM_cons] at h
    obtain ⟨s₁, h₁, h⟩ := bind_eq_ok _ _ _ h
    exact ih s₁ s' h (hf a s s₁ h₁ hs)

theorem scan_keeps (defs : Definitions) (P : List String → Prop)
    (hP : KeptByRecording defs P) : ∀ fuel, ScanKeeps P (scan defs fuel) := by
  intro fuel
  induction fuel with
  | zero =>
    intro v s s' h
    simp [scan] at h
  | succ fuel ih =>
    intro v s s' h hs
    cases v with
    | inl d =>
      simp only [scan] at h
      obtain ⟨s₁, h₁, h⟩ := bind_eq_ok _ _ _ h
      obtain ⟨s₂, h₂, h⟩ := bind_eq_ok _ _ _ h
      obtain ⟨s₃, h₃, h⟩ := bind_eq_ok _ _ _ h
      obtain ⟨s₄, h₄, h⟩ := bind_eq_ok _ _ _ h
      obtain ⟨s₅, h₅, h⟩ := bind_eq_ok _ _ _ h
      have g₁ := scanDefRef_keeps hP ih _ _ _ h₁ hs
      have g₂ := foldlM_keeps P _ _ (fun a s s' hh => ih (.inl a) s s' hh) _ _ h₂ g₁
      have g₃ := foldlM_keeps P _ _ (fun a s s' hh => ih (.inr a) s s' hh) _ _ h₃ g₂
      have g₄ := scanOpt_keeps ih _ _ _ h₄ g₃
      have g₅ := scanOpt_keeps ih _ _ _ h₅ g₄
      exact scanOpt_keeps ih _ _ _ h g₅
    | inr f =>
      simp only [scan] at h
      obtain ⟨s₁, h₁, h⟩ := bind_eq_ok _ _ _ h
      exact scanOpt_keeps ih _ _ _ h (scanFieldRef_keeps hP ih _ _ _ h₁ hs)

theorem nodup_keptByRecording (defs : Definitions) : KeptByRecording defs List.Nodup := by
  intro s r hs _ _
  unfold setAdd
  split
  · exact hs
  · rename_i hr
    exact List.Nodup.append hs (List.nodup_singleton r)
      (by
        intro x hx₁ hx₂
        have : x = r := by simpa using hx₂
        exact hr (this ▸ hx₁))

theorem noSentinel_keptByRecording (defs : Definitions) :
    KeptByRecording defs (fun s => ∀ x ∈ s, strings.HasPrefix x "List$" = false) := by
  intro s r hs hpre _ x hx
  unfold setAdd at hx
  split at hx
  · exact hs x hx
  · rcases List.mem_append.1 hx with hx | hx
    · exact hs x hx
    · have : x = r := by simpa using hx
      exact this ▸ hpre

/-- C19: whenever `CollectDependenciesMemo` returns on an empty memo, as it does on a schema
with acyclic sentinel references and no nil dereference, the list it returns has no
duplicates, contains only keys of the schema, and contains no name that starts with the
sentinel prefix `List$`. -/
theorem collectDependencies_set (enum : MapOrder) (defs : Definitions) (fuel : Nat)
    (r : String) (deps : List String) (memo : DepMemo) (henum : ∀ r l, (enum r l).Perm l)
    (hret : CollectDependenciesMemo enum fuel r defs [] = .ok (deps, memo)) :
    deps.Nodup ∧ (∀ d ∈ deps, d ∈ mapKeys defs) ∧
      (∀ d ∈ deps, strings.HasPrefix d "List$" = false) := by
  simp only [CollectDependenciesMemo, mapGet] at hret
  obtain ⟨s, hs, hret⟩ := bind_eq_ok _ _ _ hret
  injection hret with hret
  injection hret with hdeps _
  subst hdeps
  have hperm := henum r s
  refine ⟨?_, ?_, ?_⟩
  · exact hperm.nodup_iff.2
      (scan_keeps defs List.Nodup (nodup_keptByRecording defs) fuel _ _ _ hs List.nodup_nil)
  · intro d hd
    rcases scan_sound defs fuel _ _ _ hs d (hperm.subset hd) with h | h
    · simp at h
    · exact h
  · intro d hd
    exact scan_keeps defs _ (noSentinel_keptByRecording defs) fuel _ _ _ hs
      (by simp) d (hperm.subset hd)

/-- C19 at the list `S` of `sentinelSchema`, whose items refer to the sentinel map `List$M`
from `K` to the sentinel list `List$L` of `K`: the only dependency is `K`. -/
theorem collectDependencies_set_witness :
    CollectDependenciesMemo reverseOrder 6 "S" sentinelSchema [] = .ok (["K"], [("S", ["K"])]) ∧
    ["K"].Nodup ∧ (∀ d ∈ ["K"], d ∈ mapKeys sentinelSchema) ∧
      (∀ d ∈ ["K"], strings.HasPrefix d "List$" = false) :=
  ⟨rfl, collectDependencies_set reverseOrder sentinelSchema 6 "S" ["K"] [("S", ["K"])]
    (fun _ l => List.reverse_perm l) rfl⟩

/-! ## The escaped slash in `MakeTypeName` -/

theorem replaceNonWordRuns_word (l : List Char) :
    ∀ inRun, ∀ c ∈ replaceNonWordRuns inRun l, isWordChar c = true := by
  induction l with
  | nil =>
    intro inRun c hc
    simp [replaceNonWordRuns] at hc
  | cons a rest ih =>
    intro inRun c hc
    simp only [replaceNonWordRuns] at hc
    split at hc
    · rename_i ha
      rcases List.mem_cons.1 hc with h | h
      · exact h ▸ ha
      · exact ih false c h
    · split at hc
      · exact ih true c hc
      · rcases List.mem_cons.1 hc with h | h
        · rw [h]
          decide
        · exact ih true c h

theorem mem_of_containsAux (l : List Char) (h : strings.containsAux ['~', '1'] l = true) :
    '~' ∈ l := by
  induction l with
  | nil => simp [strings.containsAux] at h
  | cons a rest ih =>
    simp only [strings.containsAux, Bool.or_eq_true] at h
    rcases h with h | h
    · simp only [List.isPrefixOf, Bool.and_eq_true, beq_iff_eq] at h
      rw [h.1]
      exact List.mem_cons_self _ _
    · exact List.mem_cons_of_mem _ (ih h)

theorem reReplaceAllString_no_marker (raw : String) :
    strings.Contains (reReplaceAllString raw) "~1" = false := by
  cases hc : strings.Contains (reReplaceAllString raw) "~1" with
  | false => rfl
  | true =>
    have hmem : '~' ∈ replaceNonWordRuns false raw.data := mem_of_containsAux _ hc
    have hword := replaceNonWordRuns_word raw.data false '~' hmem
    exact absurd hword (by decide)

/-- C21 fails on the code: `MakeTypeName` and `makeTypeName` turn `foo~1bar` into
`Foo_1bar`, not `Bar`; the regular expression has replaced every `~` before the marker
`~1` is looked for, so for no raw string is the marker found and a segment dropped. -/
theorem makeTypeName_keeps_escaped_slash :
    MakeTypeName "foo~1bar" = "Foo_1bar" ∧ makeTypeName "foo~1bar" = "Foo_1bar" ∧
    (∀ raw, strings.Contains
      (reReplaceAllString (strings.ReplaceAll (strings.ReplaceAll raw " " "_") "$" "_")) "~1"
      = false) :=
  ⟨by decide, by decide, fun _ => reReplaceAllString_no_marker _⟩

/-! ## The numeric suffix -/

theorem suffixLoop_least (used : List String) (namespaced : String) (fuel : Nat) :
    ∀ (counter : Nat) (pending : List String), pending.length < fuel →
      (∀ k, counter ≤ k → namespaced ++ "_" ++ fmtNat k ∈ used →
        namespaced ++ "_" ++ fmtNat k ∈ pending) →
      ∃ n, counter ≤ n ∧
        suffixLoop used namespaced fuel counter = .ok (namespaced ++ "_" ++ fmtNat n) ∧
        namespaced ++ "_" ++ fmtNat n ∉ used ∧
        ∀ m, counter ≤ m → m < n → namespaced ++ "_" ++ fmtNat m ∈ used := by
  induction fuel with
  | zero => intro counter pending h; omega
  | succ fuel ih =>
    intro counter pending hlen hpend
    by_cases hmem : namespaced ++ "_" ++ fmtNat counter ∈ used
    · have hp := hpend counter (Nat.le_refl _) hmem
      have hlen₁ : (pending.erase (namespaced ++ "_" ++ fmtNat counter)).length < fuel := by
        rw [List.length_erase_of_mem hp]
        have : 0 < pending.length := List.length_pos_of_mem hp
        omega
      obtain ⟨n, hn, hloop, hnot, hleast⟩ := ih (counter + 1)
        (pending.erase (namespaced ++ "_" ++ fmtNat counter)) hlen₁ (by
          intro k hk hku
          have hkp := hpend k (by omega) hku
          have hne : namespaced ++ "_" ++ fmtNat k ≠ namespaced ++ "_" ++ fmtNat counter := by
            intro heq
            have := suffix_candidate_injective namespaced k counter heq
            omega
          exact (List.mem_erase_of_ne hne).2 hkp)
      refine ⟨n, by omega, by simp only [suffixLoop, hmem, if_true, hloop], hnot, ?_⟩
      intro m hm hmn
      by_cases hmc : m = counter
      · exact hmc ▸ hmem
      · exact hleast m (by omega) hmn
    · exact ⟨counter, Nat.le_refl _, by simp only [suffixLoop, hmem, if_false], hmem,
        fun m hm hmn => by omega⟩

/-- C22: when the first candidate and the namespaced candidate are both in the used set,
`getUniqueTypeName` returns, with any fuel above the size of the used set, the namespaced
candidate followed by `_` and the least `n ≥ 1` for which that string is unused, and the
used set becomes the previous one plus the returned identifier. -/
theorem getUniqueTypeName_least_suffix (reserved : ReservedNames) (fuel : Nat)
    (title refName : String) (used : List String)
    (hfirst : firstCandidate reserved title refName ∈ used)
    (hsecond : namespacedCandidate reserved refName ∈ used)
    (hfuel : used.length < fuel) :
    ∃ n, 1 ≤ n ∧
      getUniqueTypeName reserved fuel title refName used =
        .ok (namespacedCandidate reserved refName ++ "_" ++ fmtNat n,
          (namespacedCandidate reserved refName ++ "_" ++ fmtNat n) :: used) ∧
      namespacedCandidate reserved refName ++ "_" ++ fmtNat n ∉ used ∧
      ∀ m, 1 ≤ m → m < n → namespacedCandidate reserved refName ++ "_" ++ fmtNat m ∈ used := by
  obtain ⟨n, hn, hloop, hnot, hleast⟩ :=
    suffixLoop_least used (namespacedCandidate reserved refName) fuel 1 used hfuel
      (fun _ _ h => h)
  refine ⟨n, hn, ?_, hnot, hleast⟩
  have hunfold : getUniqueTypeName reserved fuel title refName used =
      (if ¬ firstCandidate reserved title refName ∈ used then
        .ok (firstCandidate reserved title refName,
          firstCandidate reserved title refName :: used)
       else if ¬ namespacedCandidate reserved refName ∈ used then
        .ok (namespacedCandidate reserved refName, namespacedCandidate reserved refName :: used)
       else do
        let unique ← suffixLoop used (namespacedCandidate reserved refName) fuel 1
        .ok (unique, unique :: used)) := rfl
  rw [hunfold]
  simp only [hfirst, hsecond, not_true_eq_false, if_false, hloop, bind, Except.bind]

/-- C22 with the default reserved names, title and reference name `Foo`, and the used set
`Foo`, `Foo_1`, `Foo_3`: the identifier is `Foo_2`. -/
theorem getUniqueTypeName_least_suffix_witness :
    ∃ n, 1 ≤ n ∧
      getUniqueTypeName defaultReservedNames 4 "Foo" "Foo" ["Foo", "Foo_1", "Foo_3"] =
        .ok (namespacedCandidate defaultReservedNames "Foo" ++ "_" ++ fmtNat n,
          (namespacedCandidate defaultReservedNames "Foo" ++ "_" ++ fmtNat n)
            :: ["Foo", "Foo_1", "Foo_3"]) ∧
      namespacedCandidate defaultReservedNames "Foo" ++ "_" ++ fmtNat n
        ∉ ["Foo", "Foo_1", "Foo_3"] ∧
      ∀ m, 1 ≤ m → m < n →
        namespacedCandidate defaultReservedNames "Foo" ++ "_" ++ fmtNat m
          ∈ ["Foo", "Foo_1", "Foo_3"] :=
  getUniqueTypeName_least_suffix defaultReservedNames 4 "Foo" "Foo" ["Foo", "Foo_1", "Foo_3"]
    (by decide) (by decide) (by decide)

/-- C23 fails on the code: in `fieldMapSchema` the expression of `A` holds the named
references `KSchema` and `VSchema`, looked up in the chosen names, but `K` and `V` are no
elements of `CollectDependenciesMemo(A)`, and `A` comes first in the emission order. -/
theorem named_reference_not_a_dependency :
    (∀ fuel, Generator.chosenNames defaultReservedNames fuel fieldMapSchema
      = .ok [("V", "V"), ("List$M", "List_M"), ("K", "K"), ("A", "A")]) ∧
    (∀ k, generateSchemaExpression fieldMapSchema
        [("V", "V"), ("List$M", "List_M"), ("K", "K"), ("A", "A")] (k + 5)
        ((mapGet fieldMapSchema "A").getD PlutusDefinition.zero)
      = .ok "Data.Object(\x7b m: Data.Map(KSchema, VSchema) \x7d)") ∧
    (∀ k kname vname, generateSchemaExpression fieldMapSchema
        [("V", vname), ("List$M", "List_M"), ("K", kname), ("A", "A")] (k + 5)
        ((mapGet fieldMapSchema "A").getD PlutusDefinition.zero)
      = .ok ("Data.Object(\x7b " ++ strings.Join
          ["m" ++ ": " ++ ("Data.Map(" ++ (kname ++ "Schema") ++ ", " ++ (vname ++ "Schema") ++ ")")]
          ", " ++ " \x7d)")) ∧
    (∀ k, directDeps insertionOrder fieldMapSchema (k + 3) "A" = []) ∧
    (∀ k, directDeps reverseOrder fieldMapSchema (k + 3) "A" = []) ∧
    (∀ j k, TypeScriptGenerator.finalOrder insertionOrder fieldMapSchema (j + 3) (k + 2)
      = .ok ["A", "K", "V", "List$M"]) ∧
    (∀ j k, TypeScriptGenerator.finalOrder reverseOrder fieldMapSchema (j + 3) (k + 2)
      = .ok ["A", "K", "V", "List$M"]) :=
  ⟨fun _ => rfl, fun _ => rfl, fun _ _ _ => rfl, fun _ => rfl, fun _ => rfl,
    fun _ _ => rfl, fun _ _ => rfl⟩

end GoGenesis
